import Mathlib

/-!
Verification of the `general_graph` library: compact/sparse graph
representations, the two union-find variants, and the recursive generators
for Apollonian, Koch and (extended) pseudofractal networks.

The Rust code is embedded shallowly: `HashMap`/`HashSet` containers become
association lists / duplicate-free lists (with a fixed iteration order
standing in for the unspecified hash order), recursive lookups take explicit
fuel and return `Option`, and panics (`unwrap` on `None`, indexing a missing
key) become `none`.
-/

namespace GG

/-! ## Compact graph representation (`NormalUndiGraph`) -/

/-- Compact graph: name, node count `n`, edge count `m`, adjacency lists. -/
structure NormalUndiGraph where
  name : String
  n : Nat
  m : Nat
  adjs : List (List Nat)
deriving DecidableEq

/-- Append `v` to the `i`-th adjacency list (Rust `adjs[i].push(v)`). -/
def pushAt (ad : List (List Nat)) (i v : Nat) : List (List Nat) :=
  ad.set i (ad.getD i [] ++ [v])

/-- Record the edge `e` in both endpoint lists
(Rust `adjs[u].push(v); adjs[v].push(u)`). -/
def push2 (ad : List (List Nat)) (e : Nat × Nat) : List (List Nat) :=
  pushAt (pushAt ad e.1 e.2) e.2 e.1

/-- Fill `n` initially empty adjacency lists from an edge sequence. -/
def buildAdjs (n : Nat) (es : List (Nat × Nat)) : List (List Nat) :=
  es.foldl push2 (List.replicate n [])

/-- The neighbors contributed to node `u` by the edge sequence `es`, in
  traversal order (specification-side view of `buildAdjs`). -/
def contrib (es : List (Nat × Nat)) (u : Nat) : List Nat :=
  es.flatMap fun e => if e.1 = u then [e.2] else if e.2 = u then [e.1] else []

/-! ## Koch generator (`NormalUndiGraph::from_koch`) -/

/-- One Koch generation: every triangle `(x,y,z)` spawns the three triangles
`(x,n,n+1), (y,n+2,n+3), (z,n+4,n+5)` while the counter advances by 6
(the inner loop of `from_koch`). -/
def kochStep : List (Nat × Nat × Nat) → Nat → List (Nat × Nat × Nat) × Nat
  | [], n => ([], n)
  | (x, y, z) :: ts, n =>
    let rec' := kochStep ts (n + 6)
    ((x, n, n + 1) :: (y, n + 2, n + 3) :: (z, n + 4, n + 5) :: rec'.1, rec'.2)

/-- `g` Koch generations starting from the single triangle `(0,1,2)` with
3 nodes; each generation appends the newly spawned triangles. -/
def kochGen : Nat → List (Nat × Nat × Nat) × Nat
  | 0 => ([(0, 1, 2)], 3)
  | g + 1 =>
    let p := kochGen g
    let s := kochStep p.1 p.2
    (p.1 ++ s.1, s.2)

/-- Record triangle `t = (x,y,z)` in the adjacency lists
(Rust `adjs[x].append [y,z]; adjs[y].append [x,z]; adjs[z].append [x,y]`). -/
def pushT (ad : List (List Nat)) (t : Nat × Nat × Nat) : List (List Nat) :=
  pushAt2 (pushAt2 (pushAt2 ad t.1 t.2.1 t.2.2) t.2.1 t.1 t.2.2) t.2.2 t.1 t.2.1
where
  pushAt2 (ad : List (List Nat)) (i a b : Nat) : List (List Nat) :=
    ad.set i (ad.getD i [] ++ [a, b])

/-- The neighbors contributed to `u` by a triangle list, in traversal order. -/
def contribT (ts : List (Nat × Nat × Nat)) (u : Nat) : List Nat :=
  ts.flatMap fun t =>
    if t.1 = u then [t.2.1, t.2.2]
    else if t.2.1 = u then [t.1, t.2.2]
    else if t.2.2 = u then [t.1, t.2.1]
    else []

/-- `NormalUndiGraph::from_koch`. -/
def fromKoch (g : Nat) : NormalUndiGraph :=
  let p := kochGen g
  { name := "Koch_" ++ toString g
    n := p.2
    m := 3 * p.1.length
    adjs := p.1.foldl pushT (List.replicate p.2 []) }

/-! ## Extended pseudofractal generator (`_from_pseudo_ext`) -/

/-- One generation's new edges: every edge `(u,v)` gets `m` fresh bridging
nodes, each connected to both endpoints (inner loops of `_from_pseudo_ext`). -/
def bridgeEdges (m : Nat) : List (Nat × Nat) → Nat → List (Nat × Nat) × Nat
  | [], n => ([], n)
  | (u, v) :: es, n =>
    let here := (List.range m).flatMap fun j => [(u, n + j), (v, n + j)]
    let rec' := bridgeEdges m es (n + m)
    (here ++ rec'.1, rec'.2)

/-- `g` pseudofractal generations from the triangle edge set
`[(0,1),(0,2),(1,2)]` on 3 nodes. -/
def pseudoGen (m : Nat) : Nat → List (Nat × Nat) × Nat
  | 0 => ([(0, 1), (0, 2), (1, 2)], 3)
  | g + 1 =>
    let p := pseudoGen m g
    let s := bridgeEdges m p.1 p.2
    (p.1 ++ s.1, s.2)

/-- `NormalUndiGraph::_from_pseudo_ext` (the name argument of the Rust
function is passed through unchanged). -/
def fromPseudoExtNamed (m g : Nat) (name : String) : NormalUndiGraph :=
  let p := pseudoGen m g
  { name := name
    n := p.2
    m := p.1.length
    adjs := buildAdjs p.2 p.1 }

/-- `NormalUndiGraph::from_pseudo_ext`. -/
def fromPseudoExt (m g : Nat) : NormalUndiGraph :=
  fromPseudoExtNamed m g ("PseudoExt_" ++ toString m ++ "_" ++ toString g)

/-- `NormalUndiGraph::from_pseudofractal`. -/
def fromPseudofractal (g : Nat) : NormalUndiGraph :=
  fromPseudoExtNamed 1 g ("Pseudofractal_" ++ toString g)

/-! ## Apollonian generator (`from_apollo`) -/

/-- Process one active face `(x,y,z)`: allocate node `n` connected to the
three corners, append its adjacency list, and record the three child faces. -/
def apolloFace (st : List (List Nat) × Nat × List (Nat × Nat × Nat))
    (t : Nat × Nat × Nat) : List (List Nat) × Nat × List (Nat × Nat × Nat) :=
  let ad := pushAt (pushAt (pushAt st.1 t.1 st.2.1) t.2.1 st.2.1) t.2.2 st.2.1
  (ad ++ [[t.1, t.2.1, t.2.2]], st.2.1 + 1,
    st.2.2 ++ [(t.1, t.2.1, st.2.1), (t.1, t.2.2, st.2.1), (t.2.1, t.2.2, st.2.1)])

/-- One Apollonian generation over the active faces; returns the new active
faces, updated adjacency lists, node count and edge count.  (The Rust code
also accumulates a list of all faces ever created, which is never read.) -/
def apolloStep (st : List (Nat × Nat × Nat) × List (List Nat) × Nat × Nat) :
    List (Nat × Nat × Nat) × List (List Nat) × Nat × Nat :=
  let r := st.1.foldl apolloFace (st.2.1, st.2.2.1, [])
  (r.2.2, r.1, r.2.1, st.2.2.2 + r.2.2.length)

/-- `g` Apollonian generations from the complete graph on 4 nodes with its
4 faces active. -/
def apolloIter (g : Nat) : List (Nat × Nat × Nat) × List (List Nat) × Nat × Nat :=
  apolloStep^[g] ([(0, 1, 2), (0, 1, 3), (0, 2, 3), (1, 2, 3)],
    [[1, 2, 3], [0, 2, 3], [0, 1, 3], [0, 1, 2]], 4, 6)

/-- `NormalUndiGraph::from_apollo`. -/
def fromApollo (g : Nat) : NormalUndiGraph :=
  let st := apolloIter g
  { name := "Apollo_" ++ toString g
    n := st.2.2.1
    m := st.2.2.2
    adjs := st.2.1 }

/-! ## Sparse graph representation (`GeneralUndiGraph`) -/

/-- Sparse graph: arbitrary node labels and canonical `(min,max)` edges.
The Rust `HashSet`s become duplicate-free lists in insertion order. -/
structure GeneralUndiGraph where
  name : String
  nodes : List Nat
  edges : List (Nat × Nat)
deriving DecidableEq

/-- Set-style insertion (Rust `HashSet::insert`). -/
def insertNew (l : List Nat) (x : Nat) : List Nat :=
  if x ∈ l then l else l ++ [x]

/-- Set-style insertion for edges. -/
def insertNewE (l : List (Nat × Nat)) (e : Nat × Nat) : List (Nat × Nat) :=
  if e ∈ l then l else l ++ [e]

/-- `GeneralUndiGraph::add_edge`. -/
def addEdge (g : GeneralUndiGraph) (u v : Nat) : GeneralUndiGraph :=
  if u = v then g
  else
    { g with
      nodes := insertNew (insertNew g.nodes u) v
      edges :=
        if u < v then insertNewE g.edges (u, v) else insertNewE g.edges (v, u) }

/-- `HashMap::entry(u).or_insert(tot)` with `tot` the current map size
(the label-to-index assignment step of `from_general`). -/
def o2nInsert (acc : List (Nat × Nat)) (u : Nat) : List (Nat × Nat) :=
  if (acc.lookup u).isSome then acc else acc ++ [(u, acc.length)]

/-- The label-to-index map built by scanning the edges in order. -/
def buildO2n (es : List (Nat × Nat)) : List (Nat × Nat) :=
  es.foldl (fun acc e => o2nInsert (o2nInsert acc e.1) e.2) []

/-- Total lookup into the label-to-index map (every edge endpoint is a key,
so the default is never read on the paths the code takes). -/
def lookupD (acc : List (Nat × Nat)) (u : Nat) : Nat :=
  (acc.lookup u).getD 0

/-- The dense-check of `from_general`: renumber iff `max(labels) + 1 ≠ n`. -/
def renumberFlag (g : GeneralUndiGraph) : Bool :=
  decide (g.nodes.foldl max 0 + 1 ≠ g.nodes.length)

/-- `NormalUndiGraph::from_general` (degree pre-sizing, which only affects
vector capacities, is omitted; `sort_unstable` on `Nat` is order-isomorphic
to insertion sort since equal keys are indistinguishable). -/
def fromGeneral (g : GeneralUndiGraph) : NormalUndiGraph :=
  let n := g.nodes.length
  if n = 0 then { name := "EmptyGraph", n := 0, m := 0, adjs := [] }
  else
    let adjs0 :=
      if renumberFlag g then
        let o2n := buildO2n g.edges
        buildAdjs n (g.edges.map fun e => (lookupD o2n e.1, lookupD o2n e.2))
      else buildAdjs n g.edges
    { name := g.name
      n := n
      m := g.edges.length
      adjs := adjs0.map (List.insertionSort (· ≤ ·)) }

/-- The worked example of the spec: the already-dense triangle. -/
def denseTriangle : GeneralUndiGraph :=
  { name := "ex", nodes := [0, 1, 2], edges := [(0, 1), (1, 2), (0, 2)] }

/-! ## Size-balanced union-find (`FastDSU`) -/

/-- A `FastDSU` entry: `Id parent` defers to another id, `Num size` marks a
root holding its component size (an `i64` in the Rust code). -/
inductive FastDSUEntry where
  | Id : Nat → FastDSUEntry
  | Num : Int → FastDSUEntry
deriving DecidableEq

/-- The parent map of a `FastDSU` as an association list in first-insertion
order (standing in for the `HashMap`'s unspecified iteration order). -/
abbrev FastDSU := List (Nat × FastDSUEntry)

/-- `HashMap::insert`: replace the value of an existing key in place,
otherwise append the binding. -/
def fdInsert : FastDSU → Nat → FastDSUEntry → FastDSU
  | [], k, v => [(k, v)]
  | q :: p, k, v => if q.1 = k then (k, v) :: p else q :: fdInsert p k v

/-- `FastDSU::add`. -/
def fdAdd (p : FastDSU) (x : Nat) : FastDSU := fdInsert p x (.Num 1)

/-- `FastDSU::find` (read-only root resolution).  The fuel stands for the
recursion; `none` models a missing key (Rust index panic) or exhausted fuel. -/
def fdFind (fuel : Nat) (p : FastDSU) (x : Nat) : Option Nat :=
  match fuel with
  | 0 => none
  | fuel + 1 =>
    match p.lookup x with
    | some (.Num _) => some x
    | some (.Id px) => fdFind fuel p px
    | none => none

/-- `FastDSU::find_all`: root resolution returning the root and its size,
rewriting every visited node to point at the root (full path compression). -/
def fdFindAll (fuel : Nat) (p : FastDSU) (x : Nat) :
    Option (Nat × Int × FastDSU) :=
  match fuel with
  | 0 => none
  | fuel + 1 =>
    match p.lookup x with
    | some (.Num num) => some (x, num, p)
    | some (.Id px) =>
      match fdFindAll fuel p px with
      | some (r, num, p') => some (r, num, fdInsert p' x (.Id r))
      | none => none
    | none => none

/-- `FastDSU::union`. -/
def fdUnion (fuel : Nat) (p : FastDSU) (x y : Nat) : Option (Bool × FastDSU) :=
  match fdFindAll fuel p x with
  | none => none
  | some (x', xn, p1) =>
    match fdFindAll fuel p1 y with
    | none => none
    | some (y', yn, p2) =>
      if x' ≠ y' then
        if xn < yn then
          some (true, fdInsert (fdInsert p2 x' (.Id y')) y' (.Num (xn + yn)))
        else
          some (true, fdInsert (fdInsert p2 y' (.Id x')) x' (.Num (xn + yn)))
      else some (false, p2)

/-- The ranking used by `retain_map`'s `max_by_key`: linked entries rank
as `-1`, roots as their size. -/
def fdEntryKey : FastDSUEntry → Int
  | .Id _ => -1
  | .Num num => num

/-- `iter().max_by_key(..)` over the parent map: the maximum-ranked key,
with ties going to the later element in iteration order. -/
def fdMaxRoot (p : FastDSU) : Option Nat :=
  (p.foldl
    (fun best q =>
      match best with
      | none => some (q.1, fdEntryKey q.2)
      | some b =>
        if b.2 ≤ fdEntryKey q.2 then some (q.1, fdEntryKey q.2) else some b)
    none).map Prod.fst

/-- `FastDSU::retain_map` (its debug write to `retain_iter.txt` is I/O and
not modeled): find the maximum-size root — `none` models the `unwrap` panic
when the map is empty — then map every tracked id to whether its root is
that root. -/
def fdRetainMap (fuel : Nat) (p : FastDSU) : Option (List (Nat × Bool)) :=
  match fdMaxRoot p with
  | none => none
  | some root =>
    p.mapM fun q => (fdFind fuel p q.1).map fun r => (q.1, decide (r = root))

/-- Union the endpoints of every edge in order (the edge loop of `lcc`). -/
def fdUnionEdges (fuel : Nat) (p : FastDSU) : List (Nat × Nat) → Option FastDSU
  | [] => some p
  | e :: es =>
    match fdUnion fuel p e.1 e.2 with
    | some q => fdUnionEdges fuel q.2 es
    | none => none

/-- `nodes.retain(|u| rmap[u])`; `none` models the missing-key panic. -/
def filterNodes (rmap : List (Nat × Bool)) : List Nat → Option (List Nat)
  | [] => some []
  | u :: us =>
    match rmap.lookup u, filterNodes rmap us with
    | some b, some rest => some (if b then u :: rest else rest)
    | _, _ => none

/-- `edges.retain(|(u,v)| rmap[u] && rmap[v])`. -/
def filterEdges (rmap : List (Nat × Bool)) :
    List (Nat × Nat) → Option (List (Nat × Nat))
  | [] => some []
  | e :: es =>
    match rmap.lookup e.1, rmap.lookup e.2, filterEdges rmap es with
    | some b1, some b2, some rest => some (if b1 && b2 then e :: rest else rest)
    | _, _, _ => none

/-- `GeneralUndiGraph::lcc`. -/
def lcc (g : GeneralUndiGraph) : Option GeneralUndiGraph :=
  let fuel := g.nodes.length + 1
  let p0 := g.nodes.foldl fdAdd []
  match fdUnionEdges fuel p0 g.edges with
  | none => none
  | some p =>
    match fdRetainMap fuel p with
    | none => none
    | some rmap =>
      match filterNodes rmap g.nodes, filterEdges rmap g.edges with
      | some ns, some es => some { g with nodes := ns, edges := es }
      | _, _ => none

/-- The two-disjoint-triangles example of the spec. -/
def twoTriangles : GeneralUndiGraph :=
  { name := "twotri", nodes := [0, 1, 2, 3, 4, 5],
    edges := [(0, 1), (0, 2), (1, 2), (3, 4), (3, 5), (4, 5)] }

/-- A `FastDSU` state reached by `add 0..3; union(0,1); union(2,3);
union(1,3)`: node 3 sits at depth 2 (3 → 2 → 0). -/
def c4State : FastDSU :=
  (do
    let p := [0, 1, 2, 3].foldl fdAdd []
    let a ← fdUnion 5 p 0 1
    let b ← fdUnion 5 a.2 2 3
    let c ← fdUnion 5 b.2 1 3
    pure c.2).getD []

/-! ## Generic union-find (`DSU<T>`) -/

/-- Generic DSU state: a growable entry arena of `(value, parent index)`
pairs plus a value-to-slot map (`HashMap<T, usize>` as an association list). -/
structure DSUState (T : Type) where
  entries : List (T × Nat)
  indices : List (T × Nat)
deriving DecidableEq

/-- Association-list lookup keyed by decidable equality. -/
def alookup {T : Type} [DecidableEq T] : List (T × Nat) → T → Option Nat
  | [], _ => none
  | q :: l, k => if q.1 = k then some q.2 else alookup l k

/-- `HashMap::insert` on the value-to-slot map. -/
def idxInsert {T : Type} [DecidableEq T] : List (T × Nat) → T → Nat → List (T × Nat)
  | [], k, v => [(k, v)]
  | q :: l, k, v => if q.1 = k then (k, v) :: l else q :: idxInsert l k v

/-- `DSU::new`. -/
def dsuNew (T : Type) : DSUState T := ⟨[], []⟩

/-- `DSU::add_unchecked`: always allocate a fresh root slot and repoint the
value-to-slot mapping at it. -/
def dsuAddUnchecked {T : Type} [DecidableEq T] (s : DSUState T) (v : T) :
    Nat × DSUState T :=
  (s.entries.length,
    ⟨s.entries ++ [(v, s.entries.length)], idxInsert s.indices v s.entries.length⟩)

/-- `DSU::add`. -/
def dsuAdd {T : Type} [DecidableEq T] (s : DSUState T) (v : T) :
    Bool × DSUState T :=
  if (alookup s.indices v).isSome then (false, s)
  else (true, (dsuAddUnchecked s v).2)

/-- `DSU::index`: resolve a value's slot, lazily inserting when absent. -/
def dsuIndex {T : Type} [DecidableEq T] (s : DSUState T) (v : T) :
    Nat × DSUState T :=
  match alookup s.indices v with
  | some i => (i, s)
  | none => dsuAddUnchecked s v

/-- The path-compression write `entries[x].parent = r` (no-op out of range). -/
def setParent {T : Type} (es : List (T × Nat)) (x r : Nat) : List (T × Nat) :=
  match es.get? x with
  | some q => es.set x (q.1, r)
  | none => es

/-- `DSU::find_by_index` with fuel standing for the recursion; compresses
the traversed path on unwind. -/
def findByIndex {T : Type} : Nat → List (T × Nat) → Nat → Option (Nat × List (T × Nat))
  | 0, _, _ => none
  | fuel + 1, es, x =>
    match es.get? x with
    | none => none
    | some q =>
      if q.2 = x then some (x, es)
      else
        match findByIndex fuel es q.2 with
        | none => none
        | some r => some (r.1, setParent r.2 x r.1)

/-- `DSU::find`: auto-inserting find; the fuel is the arena size (enough on
well-formed states). -/
def dsuFind {T : Type} [DecidableEq T] (s : DSUState T) (v : T) :
    Option (Nat × DSUState T) :=
  (findByIndex (dsuIndex s v).2.entries.length (dsuIndex s v).2.entries
      (dsuIndex s v).1).map
    fun r => (r.1, ⟨r.2, (dsuIndex s v).2.indices⟩)

/-- The slot returned by `find`, discarding the compressed state. -/
def dsuFindRes {T : Type} [DecidableEq T] (s : DSUState T) (v : T) : Option Nat :=
  (dsuFind s v).map Prod.fst

/-- `DSU::find_unchecked`: fails (`none`) on a missing key. -/
def dsuFindUnchecked {T : Type} [DecidableEq T] (s : DSUState T) (v : T) :
    Option (Nat × DSUState T) :=
  match alookup s.indices v with
  | none => none
  | some i =>
    (findByIndex s.entries.length s.entries i).map
      fun r => (r.1, ⟨r.2, s.indices⟩)

/-- `DSU::union`: resolve both roots, then unconditionally attach `root(x)`
under `root(y)`; returns whether the roots differed. -/
def dsuUnion {T : Type} [DecidableEq T] (s : DSUState T) (x y : T) :
    Option (Bool × DSUState T) :=
  match dsuFind s x with
  | none => none
  | some (px, s1) =>
    match dsuFind s1 y with
    | none => none
    | some (py, s2) =>
      some (decide (px ≠ py), ⟨setParent s2.entries px py, s2.indices⟩)

/-- `DSU::union_unchecked`. -/
def dsuUnionUnchecked {T : Type} [DecidableEq T] (s : DSUState T) (x y : T) :
    Option (Bool × DSUState T) :=
  match dsuFindUnchecked s x with
  | none => none
  | some (px, s1) =>
    match dsuFindUnchecked s1 y with
    | none => none
    | some (py, s2) =>
      some (decide (px ≠ py), ⟨setParent s2.entries px py, s2.indices⟩)

/-- One parent-pointer step (identity outside the arena). -/
def parentF {T : Type} (es : List (T × Nat)) (x : Nat) : Nat :=
  match es.get? x with
  | some q => q.2
  | none => x

/-- The root of slot `x`: `length` parent steps, enough to stabilize on
well-formed arenas. -/
def rootOf {T : Type} (es : List (T × Nat)) (x : Nat) : Nat :=
  (parentF es)^[es.length] x

/-- Well-formed arena: in-range parents forming a forest (every chain
stabilizes within `length` steps). -/
def WFes {T : Type} (es : List (T × Nat)) : Prop :=
  ∀ x < es.length,
    parentF es x < es.length ∧ parentF es (rootOf es x) = rootOf es x

/-- Well-formed DSU state: well-formed arena and in-range slot map. -/
def DSUWF {T : Type} (s : DSUState T) : Prop :=
  WFes s.entries ∧ ∀ q ∈ s.indices, q.2 < s.entries.length

instance {T : Type} (es : List (T × Nat)) : Decidable (WFes es) := by
  unfold WFes
  infer_instance

instance {T : Type} (s : DSUState T) : Decidable (DSUWF s) := by
  unfold DSUWF
  infer_instance

/-- The generic-DSU operations, for stating properties over arbitrary
operation sequences. -/
inductive DSUOp (T : Type) where
  | add : T → DSUOp T
  | addUnchecked : T → DSUOp T
  | find : T → DSUOp T
  | findUnchecked : T → DSUOp T
  | union : T → T → DSUOp T
  | unionUnchecked : T → T → DSUOp T

/-- Run one operation, keeping only the state. -/
def runOp {T : Type} [DecidableEq T] (s : DSUState T) : DSUOp T → Option (DSUState T)
  | .add v => some (dsuAdd s v).2
  | .addUnchecked v => some (dsuAddUnchecked s v).2
  | .find v => (dsuFind s v).map Prod.snd
  | .findUnchecked v => (dsuFindUnchecked s v).map Prod.snd
  | .union x y => (dsuUnion s x y).map Prod.snd
  | .unionUnchecked x y => (dsuUnionUnchecked s x y).map Prod.snd

/-- Run a sequence of operations. -/
def runOps {T : Type} [DecidableEq T] (s : DSUState T) :
    List (DSUOp T) → Option (DSUState T)
  | [] => some s
  | op :: ops =>
    match runOp s op with
    | some s' => runOps s' ops
    | none => none

/-- A value is tracked by the DSU. -/
def present {T : Type} [DecidableEq T] (s : DSUState T) (v : T) : Prop :=
  (alookup s.indices v).isSome = true

instance {T : Type} [DecidableEq T] (s : DSUState T) (v : T) :
    Decidable (present s v) :=
  inferInstanceAs (Decidable ((alookup s.indices v).isSome = true))

/-- Concrete start state for exercising `add`: the DSU `{7}`. -/
def c9Start : DSUState Nat := (dsuAdd (dsuNew Nat) 7).2

/-- A concrete operation sequence run after adding 7. -/
def c9Ops : List (DSUOp Nat) := [.add 8, .union 7 8]

/-- The state reached by `c9Ops` from `c9Start`. -/
def c9End : DSUState Nat := (runOps c9Start c9Ops).getD (dsuNew Nat)

/-- A concrete two-element DSU for exercising `union`. -/
def c8State : DSUState Nat :=
  (runOps (dsuNew Nat) [.add 1, .add 2]).getD (dsuNew Nat)

/-- The representation invariants of a compact graph: one adjacency list per
node, each strictly ascending (hence sorted ascending with no duplicate
neighbor entries), no self-loops, and symmetric membership. -/
def CompactWF (G : NormalUndiGraph) : Prop :=
  G.adjs.length = G.n ∧
  (∀ l ∈ G.adjs, List.Pairwise (· < ·) l) ∧
  (∀ l ∈ G.adjs, l.Nodup) ∧
  (∀ u < G.n, u ∉ G.adjs.getD u []) ∧
  (∀ u < G.n, ∀ v < G.n, (v ∈ G.adjs.getD u [] ↔ u ∈ G.adjs.getD v []))

instance (G : NormalUndiGraph) : Decidable (CompactWF G) := by
  unfold CompactWF
  infer_instance

/-- Invariant of the Apollonian face-processing fold: state is
`(adjacency lists, node counter, accumulated child faces)`. -/
def ApolloInv (st : List (List Nat) × Nat × List (Nat × Nat × Nat)) : Prop :=
  st.1.length = st.2.1 ∧
  (∀ u, List.Pairwise (· < ·) (st.1.getD u []) ∧
    ∀ x ∈ st.1.getD u [], x < st.2.1) ∧
  (∀ u v, v ∈ st.1.getD u [] ↔ u ∈ st.1.getD v []) ∧
  (∀ u, u ∉ st.1.getD u []) ∧
  (∀ t ∈ st.2.2, t.1 < t.2.1 ∧ t.2.1 < t.2.2 ∧ t.2.2 < st.2.1)

/-- Invariant of the Apollonian generation loop: state is
`(active faces, adjacency lists, node count, edge count)`. -/
def ApolloStInv
    (st : List (Nat × Nat × Nat) × List (List Nat) × Nat × Nat) : Prop :=
  st.2.1.length = st.2.2.1 ∧
  (∀ u, List.Pairwise (· < ·) (st.2.1.getD u []) ∧
    ∀ x ∈ st.2.1.getD u [], x < st.2.2.1) ∧
  (∀ u v, v ∈ st.2.1.getD u [] ↔ u ∈ st.2.1.getD v []) ∧
  (∀ u, u ∉ st.2.1.getD u []) ∧
  (∀ t ∈ st.1, t.1 < t.2.1 ∧ t.2.1 < t.2.2 ∧ t.2.2 < st.2.2.1)

/-- The well-formedness invariants of a sparse graph (the `HashSet`
invariants of the Rust representation): distinct node labels, distinct
canonical `(min,max)` edges with `min < max`, and edge endpoints drawn from
the node set. -/
def GeneralWF (g : GeneralUndiGraph) : Prop :=
  g.nodes.Nodup ∧ g.edges.Nodup ∧
  (∀ e ∈ g.edges, e.1 < e.2) ∧
  (∀ e ∈ g.edges, e.1 ∈ g.nodes ∧ e.2 ∈ g.nodes)

instance (g : GeneralUndiGraph) : Decidable (GeneralWF g) := by
  unfold GeneralWF
  infer_instance

end GG

namespace GG

/-! ## Counting lemmas for the generators -/

theorem kochStep_counter (ts : List (Nat × Nat × Nat)) (n : Nat) :
    (kochStep ts n).2 = n + 6 * ts.length := by
  induction ts generalizing n with
  | nil => simp [kochStep]
  | cons t ts ih =>
    obtain ⟨x, y, z⟩ := t
    simp only [kochStep, ih, List.length_cons]
    ring

theorem kochStep_length (ts : List (Nat × Nat × Nat)) (n : Nat) :
    (kochStep ts n).1.length = 3 * ts.length := by
  induction ts generalizing n with
  | nil => simp [kochStep]
  | cons t ts ih =>
    obtain ⟨x, y, z⟩ := t
    simp only [kochStep, List.length_cons, ih]
    ring

theorem kochGen_length (g : Nat) : (kochGen g).1.length = 4 ^ g := by
  induction g with
  | zero => simp [kochGen]
  | succ g ih =>
    simp only [kochGen, List.length_append, ih, kochStep_length]
    ring

theorem kochGen_nodes (g : Nat) : (kochGen g).2 = 2 * 4 ^ g + 1 := by
  induction g with
  | zero => simp [kochGen]
  | succ g ih =>
    simp only [kochGen, kochStep_counter, ih, kochGen_length]
    ring

/-- C1: the Koch recurrence as the code actually implements it.  Every
existing triangle spawns 3 new triangles (6 fresh nodes) and is kept, so the
triangle count quadruples each generation from a base of 1; the stored edge
count is 3 times the triangle count, i.e. `3 * 4 ^ g`; the node counts for
generations 0 and 1 are 3 and 9, but the edge count after one generation is
12, not 9. -/
theorem koch_recurrence (g : Nat) :
    (kochGen 0).1.length = 1 ∧
    (kochGen (g + 1)).1.length = 4 * (kochGen g).1.length ∧
    (kochGen (g + 1)).2 = (kochGen g).2 + 6 * (kochGen g).1.length ∧
    (fromKoch g).m = 3 * (kochGen g).1.length ∧
    (fromKoch g).m = 3 * 4 ^ g ∧
    (fromKoch g).n = 2 * 4 ^ g + 1 ∧
    (fromKoch 0).n = 3 ∧ (fromKoch 0).m = 3 ∧
    (fromKoch 1).n = 9 ∧ (fromKoch 1).m = 12 := by
  have h2 : (kochGen (g + 1)).1.length = 4 * (kochGen g).1.length := by
    simp only [kochGen, List.length_append, kochStep_length]; ring
  have h3 : (kochGen (g + 1)).2 = (kochGen g).2 + 6 * (kochGen g).1.length := by
    simp only [kochGen, kochStep_counter]
  have h5 : (fromKoch g).m = 3 * 4 ^ g := by
    show 3 * (kochGen g).1.length = 3 * 4 ^ g
    rw [kochGen_length]
  have h6 : (fromKoch g).n = 2 * 4 ^ g + 1 := kochGen_nodes g
  exact ⟨by decide, h2, h3, rfl, h5, h6, by decide, by decide, by decide, by decide⟩

/-- C1 counterexample: the claimed value `m = 9` for `from_koch(1)` is wrong;
the code produces `m = 12` (the triangle count quadruples rather than
triples, since old triangles are retained). -/
theorem koch_gen1_m_ne_nine : (fromKoch 1).m = 12 ∧ (fromKoch 1).m ≠ 9 := by
  decide

theorem bridgeEdges_counter (m : Nat) (es : List (Nat × Nat)) (n : Nat) :
    (bridgeEdges m es n).2 = n + m * es.length := by
  induction es generalizing n with
  | nil => simp [bridgeEdges]
  | cons e es ih =>
    obtain ⟨u, v⟩ := e
    simp only [bridgeEdges, ih, List.length_cons]
    ring

theorem length_flatMap_pairs (k : Nat) (f : Nat → List (Nat × Nat))
    (h : ∀ j, (f j).length = 2) :
    ((List.range k).flatMap f).length = 2 * k := by
  induction k with
  | zero => simp
  | succ k ih =>
    rw [List.range_succ, List.flatMap_append]
    simp only [List.length_append, ih, List.flatMap_cons, List.flatMap_nil,
      List.append_nil, h]
    ring

theorem bridgeEdges_length (m : Nat) (es : List (Nat × Nat)) (n : Nat) :
    (bridgeEdges m es n).1.length = 2 * m * es.length := by
  induction es generalizing n with
  | nil => simp [bridgeEdges]
  | cons e es ih =>
    obtain ⟨u, v⟩ := e
    simp only [bridgeEdges, List.length_append, List.length_cons, ih]
    rw [length_flatMap_pairs m (fun j => [(u, n + j), (v, n + j)]) (fun j => rfl)]
    ring

/-- C3: the extended-pseudofractal recurrence.  Each generation multiplies
the edge count by `2m+1` and grows the node count by `m` times the previous
edge count; generation 0 has 3 nodes and 3 edges for any `m`, and the
pseudofractal (`m = 1`) case after one generation has 6 nodes and 9 edges. -/
theorem pseudo_recurrence (m g : Nat) :
    (pseudoGen m (g + 1)).1.length = (2 * m + 1) * (pseudoGen m g).1.length ∧
    (pseudoGen m (g + 1)).2 = (pseudoGen m g).2 + m * (pseudoGen m g).1.length ∧
    (fromPseudoExt m 0).n = 3 ∧ (fromPseudoExt m 0).m = 3 ∧
    (fromPseudofractal 1).n = 6 ∧ (fromPseudofractal 1).m = 9 := by
  refine ⟨?_, ?_, rfl, rfl, by decide, by decide⟩
  · simp only [pseudoGen, List.length_append, bridgeEdges_length]
    ring
  · simp only [pseudoGen, bridgeEdges_counter]

theorem apolloFace_spec (faces : List (Nat × Nat × Nat))
    (ad : List (List Nat)) (n : Nat) (acc : List (Nat × Nat × Nat)) :
    (faces.foldl apolloFace (ad, n, acc)).2.1 = n + faces.length ∧
    (faces.foldl apolloFace (ad, n, acc)).2.2.length =
      acc.length + 3 * faces.length := by
  induction faces generalizing ad n acc with
  | nil => simp
  | cons t faces ih =>
    obtain ⟨x, y, z⟩ := t
    simp only [List.foldl_cons]
    refine ⟨?_, ?_⟩
    · rw [(ih _ _ _).1]; simp [apolloFace]; ring
    · rw [(ih _ _ _).2]; simp [apolloFace]; ring

theorem apolloStep_spec (st : List (Nat × Nat × Nat) × List (List Nat) × Nat × Nat) :
    (apolloStep st).1.length = 3 * st.1.length ∧
    (apolloStep st).2.2.1 = st.2.2.1 + st.1.length ∧
    (apolloStep st).2.2.2 = st.2.2.2 + 3 * st.1.length := by
  have h := apolloFace_spec st.1 st.2.1 st.2.2.1 []
  simp only [apolloStep]
  exact ⟨by rw [h.2]; simp, h.1, by rw [h.2]; simp⟩

theorem apolloIter_succ (g : Nat) :
    apolloIter (g + 1) = apolloStep (apolloIter g) := by
  simp [apolloIter, Function.iterate_succ_apply']

theorem apolloIter_faces (g : Nat) : (apolloIter g).1.length = 4 * 3 ^ g := by
  induction g with
  | zero => simp [apolloIter]
  | succ g ih =>
    rw [apolloIter_succ, (apolloStep_spec _).1, ih]
    ring

/-- C2: the Apollonian recurrence.  The active-face count starts at 4 and
triples each generation; each generation adds one node per active face and
three edges per active face; generation 0 has `n = 4, m = 6` and generation
1 has `n = 8, m = 18`. -/
theorem apollo_recurrence (g : Nat) :
    (apolloIter 0).1.length = 4 ∧
    (apolloIter (g + 1)).1.length = 3 * (apolloIter g).1.length ∧
    (apolloIter g).1.length = 4 * 3 ^ g ∧
    (fromApollo (g + 1)).n = (fromApollo g).n + (apolloIter g).1.length ∧
    (fromApollo (g + 1)).m = (fromApollo g).m + 3 * (apolloIter g).1.length ∧
    (fromApollo 0).n = 4 ∧ (fromApollo 0).m = 6 ∧
    (fromApollo 1).n = 8 ∧ (fromApollo 1).m = 18 := by
  refine ⟨by decide, ?_, apolloIter_faces g, ?_, ?_, by decide, by decide,
    by decide, by decide⟩
  · rw [apolloIter_succ]; exact (apolloStep_spec _).1
  · show (apolloIter (g + 1)).2.2.1 = (apolloIter g).2.2.1 + _
    rw [apolloIter_succ]; exact (apolloStep_spec _).2.1
  · show (apolloIter (g + 1)).2.2.2 = (apolloIter g).2.2.2 + _
    rw [apolloIter_succ]; exact (apolloStep_spec _).2.2

/-! ## The dense check of `from_general` -/

theorem le_foldl_max (l : List Nat) (a : Nat) : a ≤ l.foldl max a := by
  induction l generalizing a with
  | nil => simp
  | cons x l ih => exact le_trans (Nat.le_max_left a x) (ih (max a x))

theorem mem_le_foldl_max (l : List Nat) (a x : Nat) (hx : x ∈ l) :
    x ≤ l.foldl max a := by
  induction l generalizing a with
  | nil => cases hx
  | cons y l ih =>
    rcases List.mem_cons.mp hx with h | h
    · subst h; exact le_trans (Nat.le_max_right a x) (le_foldl_max _ _)
    · exact ih _ h

theorem foldl_max_le (l : List Nat) (a b : Nat) (ha : a ≤ b)
    (h : ∀ x ∈ l, x ≤ b) : l.foldl max a ≤ b := by
  induction l generalizing a with
  | nil => simpa
  | cons x l ih =>
    refine ih (max a x) (max_le ha (h x (by simp))) fun y hy => h y (by simp [hy])

/-- C6: `from_general` keeps the original labels as indices exactly when
`max(labels) + 1 = n`, which (for a duplicate-free non-empty label set)
holds exactly when the label set is `{0, …, n-1}`; on the already-dense
triangle edge set it produces `n = 3`, `m = 3` and the two-element sorted
adjacency lists `[1,2], [0,2], [0,1]`. -/
theorem fromGeneral_dense_check (g : GeneralUndiGraph)
    (hnd : g.nodes.Nodup) (hne : g.nodes ≠ []) :
    (renumberFlag g = false ↔
      g.nodes.toFinset = Finset.range g.nodes.length) ∧
    (fromGeneral denseTriangle).n = 3 ∧
    (fromGeneral denseTriangle).m = 3 ∧
    (fromGeneral denseTriangle).adjs = [[1, 2], [0, 2], [0, 1]] ∧
    (∀ l ∈ (fromGeneral denseTriangle).adjs,
      l.length = 2 ∧ List.Sorted (· ≤ ·) l) := by
  refine ⟨?_, by decide, by decide, by decide, by decide⟩
  have hn : 0 < g.nodes.length := List.length_pos.mpr hne
  have hcard : g.nodes.toFinset.card = g.nodes.length :=
    List.toFinset_card_of_nodup hnd
  simp only [renumberFlag, decide_eq_false_iff_not, not_ne_iff]
  constructor
  · intro hmax
    apply Finset.eq_of_subset_of_card_le
    · intro x hx
      rw [List.mem_toFinset] at hx
      have := mem_le_foldl_max g.nodes 0 x hx
      rw [Finset.mem_range]
      omega
    · rw [hcard, Finset.card_range]
  · intro hset
    have h1 : g.nodes.foldl max 0 ≤ g.nodes.length - 1 := by
      refine foldl_max_le _ _ _ (by omega) fun x hx => ?_
      have : x ∈ Finset.range g.nodes.length := by
        rw [← hset, List.mem_toFinset]; exact hx
      rw [Finset.mem_range] at this
      omega
    have h2 : g.nodes.length - 1 ≤ g.nodes.foldl max 0 := by
      refine mem_le_foldl_max _ _ _ ?_
      rw [← List.mem_toFinset, hset, Finset.mem_range]
      omega
    omega

/-! ## FastDSU union behaviour -/

theorem lookup_fdInsert (p : FastDSU) (k : Nat) (v : FastDSUEntry) (z : Nat) :
    (fdInsert p k v).lookup z = if z = k then some v else p.lookup z := by
  induction p with
  | nil =>
    by_cases h : z = k
    · simp [fdInsert, List.lookup, h]
    · simp [fdInsert, List.lookup, h, beq_false_of_ne h]
  | cons q p ih =>
    by_cases hq : q.1 = k
    · by_cases h : z = k
      · simp [fdInsert, hq, List.lookup, h]
      · simp only [fdInsert, hq, if_pos]
        have hzq : z ≠ q.1 := by rw [hq]; exact h
        simp [List.lookup, h, beq_false_of_ne hzq, beq_false_of_ne h]
    · by_cases h : z = q.1
      · subst h
        simp [fdInsert, hq, List.lookup]
      · simp only [fdInsert, hq, if_neg, not_false_iff]
        simp [List.lookup, beq_false_of_ne h, ih]

/-- C4 (amended): with both roots resolved by `find_all` (whose path
compression is the only state change of the `false` branch), `union` returns
`false` when the roots coincide; otherwise it returns `true` and relinks the
strictly smaller tree under the larger: for `sizeX < sizeY` x's root becomes
`Id(rootY)` and y's root absorbs the size `sizeX + sizeY`; in every other
case — ties included — y's root becomes `Id(rootX)` and x's root absorbs the
size, so ties leave x's root as the surviving root.  All other ids keep
their entries. -/
theorem fdUnion_spec (fuel : Nat) (p p1 p2 : FastDSU) (x y rx ry : Nat)
    (sx sy : Int)
    (hx : fdFindAll fuel p x = some (rx, sx, p1))
    (hy : fdFindAll fuel p1 y = some (ry, sy, p2)) :
    (rx = ry → fdUnion fuel p x y = some (false, p2)) ∧
    (rx ≠ ry →
      ∃ q, fdUnion fuel p x y = some (true, q) ∧
        (sx < sy →
          q.lookup rx = some (.Id ry) ∧
          q.lookup ry = some (.Num (sx + sy)) ∧
          ∀ z, z ≠ rx → z ≠ ry → q.lookup z = p2.lookup z) ∧
        (sy ≤ sx →
          q.lookup ry = some (.Id rx) ∧
          q.lookup rx = some (.Num (sx + sy)) ∧
          ∀ z, z ≠ rx → z ≠ ry → q.lookup z = p2.lookup z)) := by
  unfold fdUnion
  rw [hx]
  dsimp only
  rw [hy]
  dsimp only
  constructor
  · intro h
    simp [h]
  · intro hne
    simp only [ne_eq, hne, not_false_iff, if_pos]
    by_cases hlt : sx < sy
    · refine ⟨_, by rw [if_pos hlt], fun _ => ?_, fun hle => absurd hlt (not_lt.mpr hle)⟩
      refine ⟨?_, ?_, fun z hzx hzy => ?_⟩
      · rw [lookup_fdInsert, if_neg (fun h => hne (h.trans rfl)), lookup_fdInsert,
          if_pos rfl]
      · rw [lookup_fdInsert, if_pos rfl]
      · rw [lookup_fdInsert, if_neg hzy, lookup_fdInsert, if_neg hzx]
    · refine ⟨_, by rw [if_neg hlt], fun h => absurd h hlt, fun _ => ?_⟩
      refine ⟨?_, ?_, fun z hzx hzy => ?_⟩
      · rw [lookup_fdInsert, if_neg (fun h => hne (rfl.trans h.symm)), lookup_fdInsert,
          if_pos rfl]
      · rw [lookup_fdInsert, if_pos rfl]
      · rw [lookup_fdInsert, if_neg hzx, lookup_fdInsert, if_neg hzy]

/-- Closed instance of the C4 theorem on a two-singleton state. -/
theorem fdUnion_spec_witness :
    fdFindAll 1 [(0, .Num 1), (1, .Num 1)] 0 =
      some (0, 1, [(0, .Num 1), (1, .Num 1)]) ∧
    fdFindAll 1 [(0, .Num 1), (1, .Num 1)] 1 =
      some (1, 1, [(0, .Num 1), (1, .Num 1)]) ∧
    ((0 = 1 → fdUnion 1 [(0, .Num 1), (1, .Num 1)] 0 1 =
        some (false, [(0, .Num 1), (1, .Num 1)])) ∧
      (0 ≠ 1 →
        ∃ q, fdUnion 1 [(0, .Num 1), (1, .Num 1)] 0 1 = some (true, q) ∧
          ((1 : Int) < 1 →
            q.lookup 0 = some (.Id 1) ∧
            q.lookup 1 = some (.Num (1 + 1)) ∧
            ∀ z, z ≠ 0 → z ≠ 1 →
              q.lookup z = List.lookup z [(0, .Num 1), (1, .Num 1)]) ∧
          ((1 : Int) ≤ 1 →
            q.lookup 1 = some (.Id 0) ∧
            q.lookup 0 = some (.Num (1 + 1)) ∧
            ∀ z, z ≠ 0 → z ≠ 1 →
              q.lookup z = List.lookup z [(0, .Num 1), (1, .Num 1)]))) :=
  ⟨rfl, rfl, fdUnion_spec 1 _ _ _ 0 1 0 1 1 1 rfl rfl⟩

/-- C4 counterexample: on the state reached by `add 0..3; union(0,1);
union(2,3); union(1,3)`, the call `union(3,0)` resolves both arguments to
root 0 and returns `false`, yet it does change the structure: `find_all`'s
path compression rewrites node 3's entry from `Id 2` to `Id 0`, so a
`false`-returning `union` is not a no-op on the parent map. -/
theorem fdUnion_false_not_noop :
    (fdUnion 5 c4State 3 0).map Prod.fst = some false ∧
    c4State.lookup 3 = some (.Id 2) ∧
    (fdUnion 5 c4State 3 0).map (fun r => r.2.lookup 3) = some (some (.Id 0)) ∧
    (fdUnion 5 c4State 3 0).map Prod.snd ≠ some c4State := by
  decide

/-! ## Largest connected component -/

/-- C7: on the two-disjoint-triangles graph, `lcc` returns a graph with
exactly 3 nodes and 3 edges, namely the source node and edge sets filtered
to membership in the surviving component (here `{3,4,5}`, the outcome of the
model's iteration-order-dependent tie-break). -/
theorem lcc_two_triangles :
    (lcc twoTriangles).map (fun h => (h.nodes.length, h.edges.length)) =
      some (3, 3) ∧
    (lcc twoTriangles).map GeneralUndiGraph.nodes =
      some (twoTriangles.nodes.filter fun u => decide (u ∈ [3, 4, 5])) ∧
    (lcc twoTriangles).map GeneralUndiGraph.edges =
      some (twoTriangles.edges.filter fun e =>
        decide (e.1 ∈ [3, 4, 5]) && decide (e.2 ∈ [3, 4, 5])) := by
  decide

/-- C10: on a sparse graph with an empty node set, `lcc` does not return a
graph at all: `retain_map`'s `max_by_key(..).unwrap()` panics on the empty
parent map (modeled as `none`), so `lcc` requires at least one node. -/
theorem lcc_empty_nodes (name : String) (es : List (Nat × Nat)) :
    lcc { name := name, nodes := [], edges := es } = none := by
  cases es <;> rfl

/-! ## Generic DSU: `add` is idempotent (C9) -/

theorem alookup_idxInsert {T : Type} [DecidableEq T]
    (l : List (T × Nat)) (k : T) (n : Nat) (z : T) :
    alookup (idxInsert l k n) z = if z = k then some n else alookup l z := by
  induction l with
  | nil =>
    by_cases h : z = k
    · simp [idxInsert, alookup, h]
    · simp [idxInsert, alookup, h, Ne.symm h]
  | cons q l ih =>
    by_cases hq : q.1 = k
    · by_cases h : z = k
      · simp [idxInsert, hq, alookup, h]
      · have hzq : ¬q.1 = z := fun hh => h (hh.symm.trans hq)
        simp [idxInsert, hq, alookup, h, hzq, Ne.symm h]
    · by_cases h : q.1 = z
      · have hzk : ¬z = k := fun hh => hq (h.trans hh)
        simp [idxInsert, hq, alookup, h, hzk]
      · simp [idxInsert, hq, alookup, h, ih]

theorem present_idxInsert {T : Type} [DecidableEq T]
    (l : List (T × Nat)) (k : T) (n : Nat) (z : T)
    (h : (alookup l z).isSome = true) :
    (alookup (idxInsert l k n) z).isSome = true := by
  rw [alookup_idxInsert]
  by_cases hz : z = k <;> simp [hz, h]

theorem present_dsuIndex {T : Type} [DecidableEq T] (s : DSUState T) (w v : T)
    (h : present s v) : present (dsuIndex s w).2 v := by
  unfold dsuIndex
  cases hl : alookup s.indices w with
  | some i => exact h
  | none => exact present_idxInsert _ _ _ _ h

theorem dsuFind_indices {T : Type} [DecidableEq T] (s s₁ : DSUState T) (w : T)
    (r : Nat) (h : dsuFind s w = some (r, s₁)) :
    s₁.indices = (dsuIndex s w).2.indices := by
  unfold dsuFind at h
  cases hf : findByIndex (dsuIndex s w).2.entries.length (dsuIndex s w).2.entries
      (dsuIndex s w).1 with
  | none => rw [hf] at h; exact absurd h (by simp)
  | some r' =>
    rw [hf] at h
    simp only [Option.map, Option.some.injEq, Prod.mk.injEq] at h
    rw [← h.2]

theorem dsuFindUnchecked_indices {T : Type} [DecidableEq T]
    (s s₁ : DSUState T) (w : T) (r : Nat)
    (h : dsuFindUnchecked s w = some (r, s₁)) : s₁.indices = s.indices := by
  unfold dsuFindUnchecked at h
  cases hl : alookup s.indices w with
  | none => rw [hl] at h; exact absurd h (by simp)
  | some i =>
    rw [hl] at h
    dsimp only at h
    cases hf : findByIndex s.entries.length s.entries i with
    | none => rw [hf] at h; exact absurd h (by simp)
    | some r' =>
      rw [hf] at h
      simp only [Option.map, Option.some.injEq, Prod.mk.injEq] at h
      rw [← h.2]

theorem present_dsuFind {T : Type} [DecidableEq T] (s s₁ : DSUState T) (w v : T)
    (r : Nat) (hf : dsuFind s w = some (r, s₁)) (h : present s v) :
    present s₁ v := by
  unfold present
  rw [dsuFind_indices s s₁ w r hf]
  exact present_dsuIndex s w v h

theorem dsuUnion_eq_none1 {T : Type} [DecidableEq T] (s : DSUState T) (x y : T)
    (h : dsuFind s x = none) : dsuUnion s x y = none := by
  unfold dsuUnion; rw [h]

theorem dsuUnion_eq_none2 {T : Type} [DecidableEq T] (s s1 : DSUState T)
    (x y : T) (px : Nat) (h1 : dsuFind s x = some (px, s1))
    (h2 : dsuFind s1 y = none) : dsuUnion s x y = none := by
  unfold dsuUnion; rw [h1]; dsimp only; rw [h2]

theorem dsuUnion_eq_some {T : Type} [DecidableEq T] (s s1 s2 : DSUState T)
    (x y : T) (px py : Nat) (h1 : dsuFind s x = some (px, s1))
    (h2 : dsuFind s1 y = some (py, s2)) :
    dsuUnion s x y =
      some (decide (px ≠ py), ⟨setParent s2.entries px py, s2.indices⟩) := by
  unfold dsuUnion; rw [h1]; dsimp only; rw [h2]

theorem dsuUnionUnchecked_eq_none1 {T : Type} [DecidableEq T] (s : DSUState T)
    (x y : T) (h : dsuFindUnchecked s x = none) :
    dsuUnionUnchecked s x y = none := by
  unfold dsuUnionUnchecked; rw [h]

theorem dsuUnionUnchecked_eq_none2 {T : Type} [DecidableEq T] (s s1 : DSUState T)
    (x y : T) (px : Nat) (h1 : dsuFindUnchecked s x = some (px, s1))
    (h2 : dsuFindUnchecked s1 y = none) : dsuUnionUnchecked s x y = none := by
  unfold dsuUnionUnchecked; rw [h1]; dsimp only; rw [h2]

theorem dsuUnionUnchecked_eq_some {T : Type} [DecidableEq T]
    (s s1 s2 : DSUState T) (x y : T) (px py : Nat)
    (h1 : dsuFindUnchecked s x = some (px, s1))
    (h2 : dsuFindUnchecked s1 y = some (py, s2)) :
    dsuUnionUnchecked s x y =
      some (decide (px ≠ py), ⟨setParent s2.entries px py, s2.indices⟩) := by
  unfold dsuUnionUnchecked; rw [h1]; dsimp only; rw [h2]

theorem runOp_present {T : Type} [DecidableEq T] (s s' : DSUState T)
    (op : DSUOp T) (v : T) (h : present s v) (hr : runOp s op = some s') :
    present s' v := by
  cases op with
  | add w =>
    simp only [runOp, Option.some.injEq] at hr
    subst hr
    unfold dsuAdd
    by_cases hw : (alookup s.indices w).isSome = true
    · rw [if_pos hw]; exact h
    · rw [if_neg hw]; exact present_idxInsert _ _ _ _ h
  | addUnchecked w =>
    simp only [runOp, Option.some.injEq] at hr
    subst hr
    exact present_idxInsert _ _ _ _ h
  | find w =>
    simp only [runOp] at hr
    cases hf : dsuFind s w with
    | none => rw [hf] at hr; exact absurd hr (by simp)
    | some r =>
      rw [hf] at hr
      simp only [Option.map, Option.some.injEq] at hr
      subst hr
      exact present_dsuFind s r.2 w v r.1 (by rw [hf]) h
  | findUnchecked w =>
    simp only [runOp] at hr
    cases hf : dsuFindUnchecked s w with
    | none => rw [hf] at hr; exact absurd hr (by simp)
    | some r =>
      rw [hf] at hr
      simp only [Option.map, Option.some.injEq] at hr
      subst hr
      unfold present
      rw [dsuFindUnchecked_indices s r.2 w r.1 (by rw [hf])]
      exact h
  | union x y =>
    simp only [runOp] at hr
    cases hf1 : dsuFind s x with
    | none => rw [dsuUnion_eq_none1 s x y hf1] at hr; exact absurd hr (by simp)
    | some r1 =>
      obtain ⟨px, s1⟩ := r1
      cases hf2 : dsuFind s1 y with
      | none =>
        rw [dsuUnion_eq_none2 s s1 x y px hf1 hf2] at hr
        exact absurd hr (by simp)
      | some r2 =>
        obtain ⟨py, s2⟩ := r2
        rw [dsuUnion_eq_some s s1 s2 x y px py hf1 hf2] at hr
        simp only [Option.map, Option.some.injEq] at hr
        subst hr
        show present (⟨setParent s2.entries px py, s2.indices⟩ : DSUState T) v
        have h2 : present s2 v :=
          present_dsuFind s1 s2 y v py hf2 (present_dsuFind s s1 x v px hf1 h)
        exact h2
  | unionUnchecked x y =>
    simp only [runOp] at hr
    cases hf1 : dsuFindUnchecked s x with
    | none =>
      rw [dsuUnionUnchecked_eq_none1 s x y hf1] at hr
      exact absurd hr (by simp)
    | some r1 =>
      obtain ⟨px, s1⟩ := r1
      cases hf2 : dsuFindUnchecked s1 y with
      | none =>
        rw [dsuUnionUnchecked_eq_none2 s s1 x y px hf1 hf2] at hr
        exact absurd hr (by simp)
      | some r2 =>
        obtain ⟨py, s2⟩ := r2
        rw [dsuUnionUnchecked_eq_some s s1 s2 x y px py hf1 hf2] at hr
        simp only [Option.map, Option.some.injEq] at hr
        subst hr
        show present (⟨setParent s2.entries px py, s2.indices⟩ : DSUState T) v
        have h2 : present s2 v := by
          unfold present
          rw [dsuFindUnchecked_indices s1 s2 y py hf2,
            dsuFindUnchecked_indices s s1 x px hf1]
          exact h
        exact h2

theorem runOps_present {T : Type} [DecidableEq T] (ops : List (DSUOp T))
    (s s' : DSUState T) (v : T) (h : present s v)
    (hr : runOps s ops = some s') : present s' v := by
  induction ops generalizing s with
  | nil =>
    simp only [runOps, Option.some.injEq] at hr
    subst hr; exact h
  | cons op ops ih =>
    simp only [runOps] at hr
    cases ho : runOp s op with
    | none => rw [ho] at hr; exact absurd hr (by simp)
    | some s₁ =>
      rw [ho] at hr
      exact ih s₁ (runOp_present s s₁ op v h ho) hr

/-- C9: `add v` returns true exactly once per distinct value: it returns
true iff `v` is absent, it leaves `v` present, and once `v` is present —
through any subsequent sequence of DSU operations — every further `add v`
returns false, leaves the state untouched, and therefore leaves the result
of `find v` unchanged. -/
theorem dsuAdd_once {T : Type} [DecidableEq T] (s₀ s' : DSUState T) (v : T)
    (ops : List (DSUOp T)) :
    ((dsuAdd s₀ v).1 = true ↔ ¬ present s₀ v) ∧
    present (dsuAdd s₀ v).2 v ∧
    (present s₀ v → runOps s₀ ops = some s' →
      present s' v ∧ dsuAdd s' v = (false, s') ∧
      dsuFindRes (dsuAdd s' v).2 v = dsuFindRes s' v) := by
  refine ⟨?_, ?_, fun hp hr => ?_⟩
  · unfold dsuAdd
    by_cases h : (alookup s₀.indices v).isSome = true <;>
      simp [h, present]
  · unfold dsuAdd
    by_cases h : (alookup s₀.indices v).isSome = true
    · simp [h, present]
    · simp only [h]
      simp only [Bool.not_eq_true] at h
      simp [h, dsuAddUnchecked, present, alookup_idxInsert]
  · have hp' : present s' v := runOps_present ops s₀ s' v hp hr
    have hadd : dsuAdd s' v = (false, s') := by
      unfold dsuAdd
      simp [present] at hp'
      simp [hp']
    exact ⟨hp', hadd, by rw [hadd]⟩

/-- Closed instance of the C9 theorem: add 7, then run `[add 8, union 7 8]`;
a later `add 7` returns false and changes nothing. -/
theorem dsuAdd_once_witness :
    present c9Start (7 : Nat) ∧ runOps c9Start c9Ops = some c9End ∧
    (((dsuAdd c9Start 7).1 = true ↔ ¬ present c9Start 7) ∧
      present (dsuAdd c9Start 7).2 7 ∧
      (present c9Start 7 → runOps c9Start c9Ops = some c9End →
        present c9End 7 ∧ dsuAdd c9End 7 = (false, c9End) ∧
        dsuFindRes (dsuAdd c9End 7).2 7 = dsuFindRes c9End 7)) :=
  ⟨by decide, by decide, dsuAdd_once c9Start c9End 7 c9Ops⟩

/-! ## Generic DSU: structure of `union` (C8) -/

theorem parentF_out {T : Type} (es : List (T × Nat)) (x : Nat)
    (h : es.length ≤ x) : parentF es x = x := by
  unfold parentF
  rw [List.get?_eq_none.mpr h]

theorem rootOf_out {T : Type} (es : List (T × Nat)) (x : Nat)
    (h : es.length ≤ x) : rootOf es x = x :=
  Function.iterate_fixed (parentF_out es x h) _

theorem parentF_lt {T : Type} {es : List (T × Nat)} (hwf : WFes es) {x : Nat}
    (h : x < es.length) : parentF es x < es.length := (hwf x h).1

theorem iterate_parentF_lt {T : Type} {es : List (T × Nat)} (hwf : WFes es)
    {x : Nat} (h : x < es.length) (k : Nat) :
    (parentF es)^[k] x < es.length := by
  induction k with
  | zero => simpa
  | succ k ih => rw [Function.iterate_succ_apply']; exact parentF_lt hwf ih

theorem parentF_rootOf {T : Type} {es : List (T × Nat)} (hwf : WFes es)
    (x : Nat) : parentF es (rootOf es x) = rootOf es x := by
  by_cases h : x < es.length
  · exact (hwf x h).2
  · rw [rootOf_out es x (le_of_not_lt h)]
    exact parentF_out es x (le_of_not_lt h)

theorem rootOf_lt {T : Type} {es : List (T × Nat)} (hwf : WFes es) {x : Nat}
    (h : x < es.length) : rootOf es x < es.length :=
  iterate_parentF_lt hwf h _

theorem rootOf_stab {T : Type} {es : List (T × Nat)} (hwf : WFes es)
    (x k : Nat) (hk : es.length ≤ k) : (parentF es)^[k] x = rootOf es x := by
  have h : k = (k - es.length) + es.length := by omega
  rw [h, Function.iterate_add_apply]
  exact Function.iterate_fixed (parentF_rootOf hwf x) _

theorem rootOf_parentF {T : Type} {es : List (T × Nat)} (hwf : WFes es)
    (x : Nat) : rootOf es (parentF es x) = rootOf es x := by
  show (parentF es)^[es.length] (parentF es x) = rootOf es x
  rw [← Function.iterate_succ_apply, Function.iterate_succ_apply']
  rw [show (parentF es)^[es.length] x = rootOf es x from rfl]
  exact parentF_rootOf hwf x

theorem rootOf_iterate {T : Type} {es : List (T × Nat)} (hwf : WFes es)
    (x k : Nat) : rootOf es ((parentF es)^[k] x) = rootOf es x := by
  induction k with
  | zero => rfl
  | succ k ih => rw [Function.iterate_succ_apply', rootOf_parentF hwf, ih]

theorem rootOf_root_self {T : Type} {es : List (T × Nat)} (hwf : WFes es)
    (x : Nat) : rootOf es (rootOf es x) = rootOf es x :=
  rootOf_iterate hwf x es.length

/-- Pigeonhole: the first time an iterate of an in-range-closed map hits a
target, the index is below the range size (the prefix of iterates up to the
first hit is injective). -/
theorem minimal_iterate_lt {f : Nat → Nat} {len z t : Nat} (hz : z < len)
    (hcl : ∀ w, w < len → f w < len) (h : ∃ k, f^[k] z = t) :
    Nat.find h < len := by
  by_contra hge
  push_neg at hge
  have hrange : ∀ i, f^[i] z < len := by
    intro i
    induction i with
    | zero => simpa
    | succ i ih => rw [Function.iterate_succ_apply']; exact hcl _ ih
  have hinj : ∀ i j, i < j → j ≤ Nat.find h → f^[i] z ≠ f^[j] z := by
    intro i j hij hjd heq
    have h1 : f^[Nat.find h] z = t := Nat.find_spec h
    have h2 : Nat.find h = (Nat.find h - j) + j := by omega
    rw [h2, Function.iterate_add_apply, ← heq, ← Function.iterate_add_apply] at h1
    have hlt : Nat.find h - j + i < Nat.find h := by omega
    exact Nat.find_min h hlt h1
  have hmono : Function.Injective
      (fun i : Fin (Nat.find h + 1) => (⟨f^[i.1] z, hrange i.1⟩ : Fin len)) := by
    intro i j hij
    simp only [Fin.mk.injEq] at hij
    rcases lt_trichotomy i.1 j.1 with hlt | heq | hgt
    · exact absurd hij (hinj i.1 j.1 hlt (by omega))
    · exact Fin.ext heq
    · exact absurd hij.symm (hinj j.1 i.1 hgt (by omega))
  have := Fintype.card_le_of_injective _ hmono
  simp only [Fintype.card_fin] at this
  omega

/-- Closure: on well-formed arenas a chain that ever hits an in-range target
does so within `length` steps. -/
theorem exists_short_hit {T : Type} {es : List (T × Nat)} (hwf : WFes es)
    {z t : Nat} (hz : z < es.length)
    (h : ∃ k, (parentF es)^[k] z = t) :
    Nat.find h < es.length ∧ (parentF es)^[Nat.find h] z = t ∧
      ∀ k < Nat.find h, (parentF es)^[k] z ≠ t :=
  ⟨minimal_iterate_lt hz (fun _ hw => parentF_lt hwf hw) h, Nat.find_spec h,
    fun _ hk => Nat.find_min h hk⟩

theorem setParent_out {T : Type} (es : List (T × Nat)) (x r : Nat)
    (h : es.length ≤ x) : setParent es x r = es := by
  unfold setParent
  rw [List.get?_eq_none.mpr h]

theorem setParent_length {T : Type} (es : List (T × Nat)) (x r : Nat) :
    (setParent es x r).length = es.length := by
  unfold setParent
  cases h : es.get? x with
  | none => rfl
  | some q => exact List.length_set es x _

theorem parentF_setParent {T : Type} (es : List (T × Nat)) (x r z : Nat)
    (hx : x < es.length) :
    parentF (setParent es x r) z = if z = x then r else parentF es z := by
  obtain ⟨q, hq⟩ : ∃ q, es.get? x = some q := by
    rw [List.get?_eq_get hx]; exact ⟨_, rfl⟩
  unfold setParent
  rw [hq]
  unfold parentF
  rw [List.get?_set_of_lt' _ _ hx]
  by_cases hz : z = x
  · simp [hz]
  · have hxz : ¬x = z := fun h => hz h.symm
    rw [if_neg hz, if_neg hxz]

theorem set_get?_self {T : Type} (es : List T) (x : Nat) (q : T)
    (h : es.get? x = some q) : es.set x q = es := by
  have hx : x < es.length := by
    by_contra hge
    rw [List.get?_eq_none.mpr (le_of_not_lt hge)] at h
    exact absurd h (by simp)
  apply List.ext_get?
  intro n
  rw [List.get?_set_of_lt' _ _ hx]
  by_cases hn : x = n
  · rw [if_pos hn, ← hn, h]
  · rw [if_neg hn]

theorem iterate_congr_avoid {f g : Nat → Nat} {x : Nat}
    (hfg : ∀ w, w ≠ x → g w = f w) (z k : Nat)
    (havoid : ∀ i < k, f^[i] z ≠ x) : g^[k] z = f^[k] z := by
  induction k with
  | zero => rfl
  | succ k ih =>
    rw [Function.iterate_succ_apply', Function.iterate_succ_apply',
      ih fun i hi => havoid i (by omega)]
    exact hfg _ (havoid k (by omega))

/-- The workhorse: rewriting the parent of an in-range node `a` to point at
an in-range root `b ≠ a` keeps the arena well-formed; every node whose chain
passes through `a` now has root `b`, every other node keeps its root. -/
theorem setParent_root_spec {T : Type} {es : List (T × Nat)} (hwf : WFes es)
    {a b : Nat} (ha : a < es.length) (hblt : b < es.length)
    (hbroot : parentF es b = b) (hab : b ≠ a) :
    WFes (setParent es a b) ∧
    (∀ z, (∃ k, (parentF es)^[k] z = a) → rootOf (setParent es a b) z = b) ∧
    (∀ z, ¬(∃ k, (parentF es)^[k] z = a) →
      rootOf (setParent es a b) z = rootOf es z) := by
  set es' := setParent es a b with hes'
  have hlen : es'.length = es.length := setParent_length es a b
  have hg : ∀ w, w ≠ a → parentF es' w = parentF es w := by
    intro w hw
    rw [hes', parentF_setParent es a b w ha, if_neg hw]
  have hga : parentF es' a = b := by
    rw [hes', parentF_setParent es a b a ha, if_pos rfl]
  have hgb : parentF es' b = b := by rw [hg b hab, hbroot]
  have hroot_hit : ∀ z, (∃ k, (parentF es)^[k] z = a) → rootOf es' z = b := by
    intro z hhit
    have hzlt : z < es.length := by
      by_contra hge
      obtain ⟨k, hk⟩ := hhit
      rw [Function.iterate_fixed (parentF_out es z (le_of_not_lt hge)) k] at hk
      exact absurd (hk ▸ ha) (not_lt.mpr (le_of_not_lt hge))
    obtain ⟨hdlt, hdhit, hdmin⟩ := exists_short_hit hwf hzlt hhit
    have hagree : (parentF es')^[Nat.find hhit] z =
        (parentF es)^[Nat.find hhit] z :=
      iterate_congr_avoid hg z _ hdmin
    have hstep : (parentF es')^[Nat.find hhit + 1] z = b := by
      rw [Function.iterate_succ_apply', hagree, hdhit, hga]
    show (parentF es')^[es'.length] z = b
    have hsplit : es'.length = (es'.length - (Nat.find hhit + 1)) +
        (Nat.find hhit + 1) := by omega
    rw [hsplit, Function.iterate_add_apply, hstep]
    exact Function.iterate_fixed hgb _
  have hroot_miss : ∀ z, ¬(∃ k, (parentF es)^[k] z = a) →
      rootOf es' z = rootOf es z := by
    intro z hhit
    push_neg at hhit
    show (parentF es')^[es'.length] z = rootOf es z
    rw [hlen, iterate_congr_avoid hg z es.length fun i _ => hhit i]
    exact rootOf_stab hwf z es.length le_rfl
  refine ⟨?_, hroot_hit, hroot_miss⟩
  intro w hw
  rw [hlen] at hw
  constructor
  · rw [hlen]
    by_cases hwa : w = a
    · rw [hwa, hga]; exact hblt
    · rw [hg w hwa]; exact parentF_lt hwf hw
  · by_cases hhit : ∃ k, (parentF es)^[k] w = a
    · rw [hroot_hit w hhit, hgb]
    · rw [hroot_miss w hhit, hg]
      · exact parentF_rootOf hwf w
      · intro hcon
        exact hhit ⟨es.length, hcon⟩

/-- `find_by_index` with enough fuel returns the root together with a
root-preserving, well-formed, same-length compressed arena. -/
theorem findByIndex_spec {T : Type} :
    ∀ (fuel : Nat) (es : List (T × Nat)) (x : Nat), WFes es → x < es.length →
    (∃ d, d < fuel ∧ (parentF es)^[d] x = rootOf es x) →
    ∃ es', findByIndex fuel es x = some (rootOf es x, es') ∧
      es'.length = es.length ∧ WFes es' ∧
      ∀ z, rootOf es' z = rootOf es z := by
  intro fuel
  induction fuel with
  | zero =>
    intro es x hwf hx hdist
    obtain ⟨d, hd, _⟩ := hdist
    omega
  | succ fuel ih =>
    intro es x hwf hx hdist
    obtain ⟨q, hq⟩ : ∃ q, es.get? x = some q := by
      rw [List.get?_eq_get hx]; exact ⟨_, rfl⟩
    have hpx : parentF es x = q.2 := by unfold parentF; rw [hq]
    by_cases hroot : q.2 = x
    · have hrx : rootOf es x = x :=
        Function.iterate_fixed (by rw [hpx, hroot]) _
      refine ⟨es, ?_, rfl, hwf, fun z => rfl⟩
      unfold findByIndex
      rw [hq]
      dsimp only
      rw [if_pos hroot, hrx]
    · have hq2lt : q.2 < es.length := by rw [← hpx]; exact parentF_lt hwf hx
      obtain ⟨d, hdf, hdroot⟩ := hdist
      have hd0 : d ≠ 0 := by
        intro h0
        rw [h0] at hdroot
        simp only [Function.iterate_zero_apply] at hdroot
        have hfix := parentF_rootOf hwf x
        rw [← hdroot, hpx] at hfix
        exact hroot hfix
      have hdist' : ∃ d', d' < fuel ∧
          (parentF es)^[d'] q.2 = rootOf es q.2 := by
        refine ⟨d - 1, by omega, ?_⟩
        rw [← hpx, rootOf_parentF hwf]
        have hstep : (parentF es)^[d - 1] (parentF es x) =
            (parentF es)^[d] x := by
          rw [← Function.iterate_succ_apply]
          congr 1
          omega
        rw [hstep, hdroot]
      obtain ⟨es'', hfind, hlen'', hwf'', hroots''⟩ := ih es q.2 hwf hq2lt hdist'
      have hrooteq : rootOf es q.2 = rootOf es x := by
        rw [← hpx, rootOf_parentF hwf]
      have hxlt'' : x < es''.length := by rw [hlen'']; exact hx
      have hrlt'' : rootOf es x < es''.length := by
        rw [hlen'']; exact rootOf_lt hwf hx
      have hrootroot : parentF es'' (rootOf es x) = rootOf es x := by
        have h1 : rootOf es'' (rootOf es x) = rootOf es x := by
          rw [hroots'', rootOf_root_self hwf]
        have h2 := parentF_rootOf hwf'' (rootOf es x)
        rw [h1] at h2
        exact h2
      have hrneq : rootOf es x ≠ x := by
        intro hcon
        have hfix := parentF_rootOf hwf x
        rw [hcon, hpx] at hfix
        exact hroot hfix
      obtain ⟨hwf', hhit', hmiss'⟩ :=
        setParent_root_spec hwf'' hxlt'' hrlt'' hrootroot hrneq
      refine ⟨setParent es'' x (rootOf es x), ?_, ?_, hwf', ?_⟩
      · unfold findByIndex
        rw [hq]
        dsimp only
        rw [if_neg hroot, hfind]
        dsimp only
        rw [hrooteq]
      · rw [setParent_length, hlen'']
      · intro z
        by_cases hhit : ∃ k, (parentF es'')^[k] z = x
        · rw [hhit' z hhit]
          obtain ⟨k, hk⟩ := hhit
          have hzx := rootOf_iterate hwf'' z k
          rw [hk] at hzx
          rw [← hroots'' z, ← hzx, hroots'' x]
        · rw [hmiss' z hhit, hroots'' z]

theorem alookup_mem {T : Type} [DecidableEq T] (l : List (T × Nat)) (k : T)
    (n : Nat) (h : alookup l k = some n) : (k, n) ∈ l := by
  induction l with
  | nil => exact absurd h (by simp [alookup])
  | cons q l ih =>
    unfold alookup at h
    by_cases hq : q.1 = k
    · rw [if_pos hq] at h
      simp only [Option.some.injEq] at h
      have hkn : (k, n) = q := by
        obtain ⟨q1, q2⟩ := q
        simp only at hq h
        rw [hq, h]
      rw [hkn]
      exact List.mem_cons_self _ _
    · rw [if_neg hq] at h
      exact List.mem_cons_of_mem _ (ih h)

theorem parentF_append {T : Type} (es : List (T × Nat)) (p : T × Nat) (z : Nat) :
    parentF (es ++ [p]) z =
      if z < es.length then parentF es z
      else if z = es.length then p.2 else z := by
  unfold parentF
  by_cases hz : z < es.length
  · rw [if_pos hz, List.get?_append hz]
  · rw [if_neg hz]
    by_cases hze : z = es.length
    · rw [if_pos hze, hze, List.get?_concat_length]
    · rw [if_neg hze, List.get?_eq_none.mpr (by simp; omega)]

/-- Appending a fresh self-parented slot keeps the arena well-formed, keeps
every old root, and makes the new slot its own root. -/
theorem append_root_spec {T : Type} {es : List (T × Nat)} (hwf : WFes es)
    (v : T) :
    WFes (es ++ [(v, es.length)]) ∧
    (∀ z < es.length, rootOf (es ++ [(v, es.length)]) z = rootOf es z) ∧
    rootOf (es ++ [(v, es.length)]) es.length = es.length := by
  set es' := es ++ [(v, es.length)] with hes'
  have hlen : es'.length = es.length + 1 := by simp [hes']
  have hagree : ∀ z < es.length, parentF es' z = parentF es z := by
    intro z hz
    rw [hes', parentF_append, if_pos hz]
  have hnew : parentF es' es.length = es.length := by
    rw [hes', parentF_append, if_neg (lt_irrefl _), if_pos rfl]
  have hiter : ∀ z, z < es.length → ∀ k, (parentF es')^[k] z = (parentF es)^[k] z := by
    intro z hz k
    induction k with
    | zero => rfl
    | succ k ihk =>
      rw [Function.iterate_succ_apply', Function.iterate_succ_apply', ihk]
      exact hagree _ (iterate_parentF_lt hwf hz k)
  have hroots : ∀ z < es.length, rootOf es' z = rootOf es z := by
    intro z hz
    show (parentF es')^[es'.length] z = rootOf es z
    rw [hiter z hz es'.length, hlen, Function.iterate_succ_apply',
      rootOf_stab hwf z es.length le_rfl]
    exact parentF_rootOf hwf z
  have hrootnew : rootOf es' es.length = es.length :=
    Function.iterate_fixed hnew _
  refine ⟨?_, hroots, hrootnew⟩
  intro w hw
  rw [hlen] at hw
  by_cases hwo : w < es.length
  · constructor
    · rw [hagree w hwo, hlen]
      exact Nat.lt_succ_of_lt (parentF_lt hwf hwo)
    · rw [hroots w hwo, hagree _ (rootOf_lt hwf hwo)]
      exact parentF_rootOf hwf w
  · have hweq : w = es.length := by omega
    subst hweq
    constructor
    · rw [hnew, hlen]; omega
    · rw [hrootnew, hnew]

theorem mem_idxInsert {T : Type} [DecidableEq T] (l : List (T × Nat)) (k : T)
    (n : Nat) (q : T × Nat) (h : q ∈ idxInsert l k n) : q = (k, n) ∨ q ∈ l := by
  induction l with
  | nil =>
    left
    simpa [idxInsert] using h
  | cons p l ih =>
    unfold idxInsert at h
    by_cases hp : p.1 = k
    · rw [if_pos hp] at h
      rcases List.mem_cons.mp h with h1 | h1
      · left; exact h1
      · right; exact List.mem_cons_of_mem _ h1
    · rw [if_neg hp] at h
      rcases List.mem_cons.mp h with h1 | h1
      · right; rw [h1]; exact List.mem_cons_self _ _
      · rcases ih h1 with h2 | h2
        · left; exact h2
        · right; exact List.mem_cons_of_mem _ h2

theorem dsuIndex_spec {T : Type} [DecidableEq T] (s : DSUState T) (v : T)
    (hwf : DSUWF s) :
    DSUWF (dsuIndex s v).2 ∧
    (dsuIndex s v).1 < (dsuIndex s v).2.entries.length ∧
    alookup (dsuIndex s v).2.indices v = some (dsuIndex s v).1 ∧
    s.entries.length ≤ (dsuIndex s v).2.entries.length ∧
    (∀ z < s.entries.length,
      rootOf (dsuIndex s v).2.entries z = rootOf s.entries z) ∧
    (∀ w j, alookup s.indices w = some j →
      alookup (dsuIndex s v).2.indices w = some j) := by
  unfold dsuIndex
  cases hl : alookup s.indices v with
  | some i =>
    refine ⟨hwf, ?_, hl, le_rfl, fun z _ => rfl, fun w j hj => hj⟩
    exact hwf.2 _ (alookup_mem _ _ _ hl)
  | none =>
    obtain ⟨hwf', hroots', hnew'⟩ := append_root_spec hwf.1 v
    dsimp only [dsuAddUnchecked]
    refine ⟨⟨hwf', ?_⟩, ?_, ?_, ?_, ?_, ?_⟩
    · intro q hq
      rcases mem_idxInsert _ _ _ _ hq with h1 | h1
      · rw [h1]
        simp
      · exact lt_of_lt_of_le (hwf.2 q h1) (by simp)
    · simp
    · rw [alookup_idxInsert]
      simp
    · simp
    · intro z hz
      exact hroots' z hz
    · intro w j hj
      rw [alookup_idxInsert]
      by_cases hw : w = v
      · rw [hw] at hj
        rw [hj] at hl
        exact absurd hl (by simp)
      · rw [if_neg hw]
        exact hj

theorem dsuFind_spec {T : Type} [DecidableEq T] (s : DSUState T) (v : T)
    (hwf : DSUWF s) :
    ∃ s', dsuFind s v =
        some (rootOf (dsuIndex s v).2.entries (dsuIndex s v).1, s') ∧
      DSUWF s' ∧ s'.indices = (dsuIndex s v).2.indices ∧
      s'.entries.length = (dsuIndex s v).2.entries.length ∧
      (∀ z, rootOf s'.entries z = rootOf (dsuIndex s v).2.entries z) := by
  obtain ⟨hwf1, hilt, hlook, hle, hroots1, hpres⟩ := dsuIndex_spec s v hwf
  have hex : ∃ k, (parentF (dsuIndex s v).2.entries)^[k] (dsuIndex s v).1 =
      rootOf (dsuIndex s v).2.entries (dsuIndex s v).1 :=
    ⟨(dsuIndex s v).2.entries.length, rfl⟩
  obtain ⟨hdlt, hdhit, _⟩ := exists_short_hit hwf1.1 hilt hex
  obtain ⟨es', heq, hlen, hwfes, hroots⟩ :=
    findByIndex_spec (dsuIndex s v).2.entries.length (dsuIndex s v).2.entries
      (dsuIndex s v).1 hwf1.1 hilt ⟨Nat.find hex, hdlt, hdhit⟩
  refine ⟨⟨es', (dsuIndex s v).2.indices⟩, ?_, ⟨hwfes, ?_⟩, rfl, hlen, hroots⟩
  · unfold dsuFind
    rw [heq]
    rfl
  · intro q hq
    have h1 := hwf1.2 q hq
    dsimp only
    omega

/-- C8: `union(x,y)` resolves both roots (auto-inserting missing keys),
unconditionally attaches root(x) under root(y) — no size or rank balancing —
and returns `true` iff the two roots differed beforehand (`false` iff x and
y were already in the same component); afterwards `find(x)` and `find(y)`
agree (both resolve to root(y)), and `union_unchecked` computes exactly the
same result whenever both keys are present. -/
theorem dsuUnion_attaches {T : Type} [DecidableEq T] (s : DSUState T)
    (x y : T) (hwf : DSUWF s) :
    ∃ px py s₁ s₂ s',
      dsuFind s x = some (px, s₁) ∧
      dsuFind s₁ y = some (py, s₂) ∧
      dsuUnion s x y = some (decide (px ≠ py), s') ∧
      s' = ⟨setParent s₂.entries px py, s₂.indices⟩ ∧
      parentF s'.entries px = py ∧
      DSUWF s' ∧
      (∀ ix, alookup s.indices x = some ix → px = rootOf s.entries ix) ∧
      (∀ iy, alookup s.indices y = some iy → py = rootOf s.entries iy) ∧
      (∃ s₃ s₄, dsuFind s' x = some (py, s₃) ∧ dsuFind s' y = some (py, s₄)) ∧
      (alookup s.indices x ≠ none → alookup s.indices y ≠ none →
        dsuUnionUnchecked s x y = dsuUnion s x y) := by
  obtain ⟨hwfE0, hi0lt, hlook0, hle0, hrootsE0, hpres0⟩ := dsuIndex_spec s x hwf
  obtain ⟨s₁, hfx, hwf1, hidx1, hlen1, hroots1⟩ := dsuFind_spec s x hwf
  obtain ⟨hwfE1, hi1lt, hlook1, hle1, hrootsE1, hpres1⟩ := dsuIndex_spec s₁ y hwf1
  obtain ⟨s₂, hfy, hwf2, hidx2, hlen2, hroots2⟩ := dsuFind_spec s₁ y hwf1
  set px := rootOf (dsuIndex s x).2.entries (dsuIndex s x).1 with hpx_def
  set py := rootOf (dsuIndex s₁ y).2.entries (dsuIndex s₁ y).1 with hpy_def
  have hpx_root_e0 : rootOf (dsuIndex s x).2.entries px = px :=
    rootOf_root_self hwfE0.1 _
  have hpx_lt_e0 : px < (dsuIndex s x).2.entries.length := rootOf_lt hwfE0.1 hi0lt
  have hpx_root_s1 : rootOf s₁.entries px = px := by
    rw [hroots1 px, hpx_root_e0]
  have hpx_lt_s1 : px < s₁.entries.length := by omega
  have hpx_root_e1 : rootOf (dsuIndex s₁ y).2.entries px = px := by
    rw [hrootsE1 px hpx_lt_s1, hpx_root_s1]
  have hpx_lt_e1 : px < (dsuIndex s₁ y).2.entries.length := by omega
  have hpx_root_s2 : rootOf s₂.entries px = px := by
    rw [hroots2 px, hpx_root_e1]
  have hpx_lt_s2 : px < s₂.entries.length := by omega
  have hpx_parent_s2 : parentF s₂.entries px = px := by
    have h := parentF_rootOf hwf2.1 px
    rw [hpx_root_s2] at h
    exact h
  have hpy_root_e1 : rootOf (dsuIndex s₁ y).2.entries py = py :=
    rootOf_root_self hwfE1.1 _
  have hpy_lt_e1 : py < (dsuIndex s₁ y).2.entries.length := rootOf_lt hwfE1.1 hi1lt
  have hpy_root_s2 : rootOf s₂.entries py = py := by
    rw [hroots2 py, hpy_root_e1]
  have hpy_lt_s2 : py < s₂.entries.length := by omega
  have hpy_parent_s2 : parentF s₂.entries py = py := by
    have h := parentF_rootOf hwf2.1 py
    rw [hpy_root_s2] at h
    exact h
  have hi0_lt_s1 : (dsuIndex s x).1 < s₁.entries.length := by omega
  have hroot_i0_s2 : rootOf s₂.entries (dsuIndex s x).1 = px := by
    rw [hroots2, hrootsE1 _ hi0_lt_s1, hroots1]
  have hroot_i1_s2 : rootOf s₂.entries (dsuIndex s₁ y).1 = py := by
    rw [hroots2]
  have halook_x_s2 : alookup s₂.indices x = some (dsuIndex s x).1 := by
    rw [hidx2]
    refine hpres1 x _ ?_
    rw [hidx1]
    exact hlook0
  have halook_y_s2 : alookup s₂.indices y = some (dsuIndex s₁ y).1 := by
    rw [hidx2]
    exact hlook1
  have hunion := dsuUnion_eq_some s s₁ s₂ x y px py hfx hfy
  -- the relinked state
  have hs'_len : (setParent s₂.entries px py).length = s₂.entries.length :=
    setParent_length _ _ _
  have hkey : WFes (setParent s₂.entries px py) ∧
      rootOf (setParent s₂.entries px py) (dsuIndex s x).1 = py ∧
      rootOf (setParent s₂.entries px py) (dsuIndex s₁ y).1 = py ∧
      parentF (setParent s₂.entries px py) px = py := by
    by_cases hpxy : px = py
    · obtain ⟨q, hq⟩ : ∃ q, s₂.entries.get? px = some q := by
        rw [List.get?_eq_get hpx_lt_s2]; exact ⟨_, rfl⟩
      have hq2 : q.2 = px := by
        have h := hpx_parent_s2
        unfold parentF at h
        rw [hq] at h
        exact h
      have hqpair : (q.1, py) = q := by
        obtain ⟨q1, q2⟩ := q
        simp only at hq2 ⊢
        rw [← hpxy, ← hq2]
      have hset_eq : setParent s₂.entries px py = s₂.entries := by
        unfold setParent
        rw [hq]
        dsimp only
        rw [hqpair]
        exact set_get?_self _ _ _ hq
      rw [hset_eq]
      exact ⟨hwf2.1, by rw [hroot_i0_s2, hpxy], hroot_i1_s2,
        by rw [hpx_parent_s2, hpxy]⟩
    · obtain ⟨hwfS', hhit, hmiss⟩ :=
        setParent_root_spec hwf2.1 hpx_lt_s2 hpy_lt_s2 hpy_parent_s2
          (fun h => hpxy h.symm)
      refine ⟨hwfS', ?_, ?_, ?_⟩
      · refine hhit _ ⟨s₂.entries.length, ?_⟩
        exact hroot_i0_s2
      · rw [hmiss _ ?_, hroot_i1_s2]
        rintro ⟨k, hk⟩
        have h := rootOf_iterate hwf2.1 (dsuIndex s₁ y).1 k
        rw [hk, hpx_root_s2, hroot_i1_s2] at h
        exact hpxy h
      · rw [parentF_setParent _ _ _ _ hpx_lt_s2, if_pos rfl]
  obtain ⟨hwfS', hrootS'_i0, hrootS'_i1, hparentS'⟩ := hkey
  have hwfS'full : DSUWF (⟨setParent s₂.entries px py, s₂.indices⟩ : DSUState T) := by
    refine ⟨hwfS', ?_⟩
    intro q hq
    have h := hwf2.2 q hq
    dsimp only
    omega
  refine ⟨px, py, s₁, s₂, ⟨setParent s₂.entries px py, s₂.indices⟩,
    hfx, hfy, hunion, rfl, hparentS', hwfS'full, ?_, ?_, ?_, ?_⟩
  · intro ix hix
    have hde : dsuIndex s x = (ix, s) := by unfold dsuIndex; rw [hix]
    rw [hpx_def, hde]
  · intro iy hiy
    have h1 : alookup s₁.indices y = some iy := by
      rw [hidx1]
      exact hpres0 y iy hiy
    have hde : dsuIndex s₁ y = (iy, s₁) := by unfold dsuIndex; rw [h1]
    have hiylt : iy < s.entries.length := hwf.2 _ (alookup_mem _ _ _ hiy)
    rw [hpy_def, hde]
    show rootOf s₁.entries iy = rootOf s.entries iy
    rw [hroots1, hrootsE0 iy hiylt]
  · -- find(x) and find(y) agree after the union
    obtain ⟨s₃, hfx', _, _, _, _⟩ :=
      dsuFind_spec (⟨setParent s₂.entries px py, s₂.indices⟩ : DSUState T) x hwfS'full
    obtain ⟨s₄, hfy', _, _, _, _⟩ :=
      dsuFind_spec (⟨setParent s₂.entries px py, s₂.indices⟩ : DSUState T) y hwfS'full
    have hdex : dsuIndex (⟨setParent s₂.entries px py, s₂.indices⟩ : DSUState T) x =
        ((dsuIndex s x).1, ⟨setParent s₂.entries px py, s₂.indices⟩) := by
      unfold dsuIndex
      rw [show alookup (⟨setParent s₂.entries px py, s₂.indices⟩ :
        DSUState T).indices x = some (dsuIndex s x).1 from halook_x_s2]
      rfl
    have hdey : dsuIndex (⟨setParent s₂.entries px py, s₂.indices⟩ : DSUState T) y =
        ((dsuIndex s₁ y).1, ⟨setParent s₂.entries px py, s₂.indices⟩) := by
      unfold dsuIndex
      rw [show alookup (⟨setParent s₂.entries px py, s₂.indices⟩ :
        DSUState T).indices y = some (dsuIndex s₁ y).1 from halook_y_s2]
      rfl
    rw [hdex] at hfx'
    rw [hdey] at hfy'
    refine ⟨s₃, s₄, ?_, ?_⟩
    · rw [hfx']
      show some (rootOf (setParent s₂.entries px py) (dsuIndex s x).1, s₃) = _
      rw [hrootS'_i0]
    · rw [hfy']
      show some (rootOf (setParent s₂.entries px py) (dsuIndex s₁ y).1, s₄) = _
      rw [hrootS'_i1]
  · -- union_unchecked coincides when both keys are present
    intro hx0 hy0
    obtain ⟨ix, hox⟩ : ∃ ix, alookup s.indices x = some ix := by
      cases h : alookup s.indices x with
      | none => exact absurd h hx0
      | some ix => exact ⟨ix, rfl⟩
    obtain ⟨iy, hoy⟩ : ∃ iy, alookup s.indices y = some iy := by
      cases h : alookup s.indices y with
      | none => exact absurd h hy0
      | some iy => exact ⟨iy, rfl⟩
    have hdex : dsuIndex s x = (ix, s) := by unfold dsuIndex; rw [hox]
    have hfux : dsuFindUnchecked s x = dsuFind s x := by
      unfold dsuFindUnchecked dsuFind
      rw [hox, hdex]
    have h1 : alookup s₁.indices y = some iy := by
      rw [hidx1]
      exact hpres0 y iy hoy
    have hdey : dsuIndex s₁ y = (iy, s₁) := by unfold dsuIndex; rw [h1]
    have hfuy : dsuFindUnchecked s₁ y = dsuFind s₁ y := by
      unfold dsuFindUnchecked dsuFind
      rw [h1, hdey]
    rw [dsuUnionUnchecked_eq_some s s₁ s₂ x y px py (hfux.trans hfx)
      (hfuy.trans hfy), hunion]

/-- Closed instance of the C8 theorem on the two-singleton DSU `{1, 2}`. -/
theorem dsuUnion_attaches_witness :
    DSUWF c8State ∧
    (∃ px py s₁ s₂ s',
      dsuFind c8State 1 = some (px, s₁) ∧
      dsuFind s₁ 2 = some (py, s₂) ∧
      dsuUnion c8State 1 2 = some (decide (px ≠ py), s') ∧
      s' = ⟨setParent s₂.entries px py, s₂.indices⟩ ∧
      parentF s'.entries px = py ∧
      DSUWF s' ∧
      (∀ ix, alookup c8State.indices 1 = some ix →
        px = rootOf c8State.entries ix) ∧
      (∀ iy, alookup c8State.indices 2 = some iy →
        py = rootOf c8State.entries iy) ∧
      (∃ s₃ s₄, dsuFind s' 1 = some (py, s₃) ∧ dsuFind s' 2 = some (py, s₄)) ∧
      (alookup c8State.indices 1 ≠ none → alookup c8State.indices 2 ≠ none →
        dsuUnionUnchecked c8State 1 2 = dsuUnion c8State 1 2)) :=
  ⟨by decide, dsuUnion_attaches c8State 1 2 (by decide)⟩

/-- Closed instance of the C6 theorem at the dense triangle example. -/
theorem fromGeneral_dense_check_witness :
    denseTriangle.nodes.Nodup ∧ denseTriangle.nodes ≠ [] ∧
    ((renumberFlag denseTriangle = false ↔
        denseTriangle.nodes.toFinset = Finset.range denseTriangle.nodes.length) ∧
      (fromGeneral denseTriangle).n = 3 ∧
      (fromGeneral denseTriangle).m = 3 ∧
      (fromGeneral denseTriangle).adjs = [[1, 2], [0, 2], [0, 1]] ∧
      (∀ l ∈ (fromGeneral denseTriangle).adjs,
        l.length = 2 ∧ List.Sorted (· ≤ ·) l)) :=
  ⟨by decide, by decide,
    fromGeneral_dense_check denseTriangle (by decide) (by decide)⟩

/-! ## Compact-graph invariants (C5): generic adjacency building -/

theorem contrib_append (es fs : List (Nat × Nat)) (u : Nat) :
    contrib (es ++ fs) u = contrib es u ++ contrib fs u :=
  List.flatMap_append es fs _

theorem contrib_cons (e : Nat × Nat) (es : List (Nat × Nat)) (u : Nat) :
    contrib (e :: es) u =
      (if e.1 = u then [e.2] else if e.2 = u then [e.1] else []) ++
        contrib es u :=
  List.flatMap_cons _ _ _

theorem mem_contrib {es : List (Nat × Nat)} {u v : Nat} :
    v ∈ contrib es u ↔ (u, v) ∈ es ∨ (v, u) ∈ es := by
  induction es with
  | nil => simp [contrib]
  | cons e es ih =>
    rw [contrib_cons, List.mem_append, ih]
    obtain ⟨a, b⟩ := e
    simp only [List.mem_cons, Prod.mk.injEq]
    by_cases h1 : a = u <;> by_cases h2 : b = u <;>
      simp [h1, h2, eq_comm] <;> tauto

theorem contrib_nil_outside (es : List (Nat × Nat)) (u : Nat)
    (h : ∀ e ∈ es, e.1 ≠ u ∧ e.2 ≠ u) : contrib es u = [] := by
  induction es with
  | nil => rfl
  | cons e es ih =>
    rw [contrib_cons, if_neg (h e (List.mem_cons_self _ _)).1,
      if_neg (h e (List.mem_cons_self _ _)).2,
      ih fun f hf => h f (List.mem_cons_of_mem _ hf), List.append_nil]

theorem getD_eq_get? (l : List (List Nat)) (n : Nat) :
    l.getD n [] = (l.get? n).getD [] := by
  induction l generalizing n with
  | nil => cases n <;> rfl
  | cons x l ih => cases n with
    | zero => rfl
    | succ n => exact ih n

theorem pushAt_length (ad : List (List Nat)) (i v : Nat) :
    (pushAt ad i v).length = ad.length := by
  unfold pushAt
  exact List.length_set ad i _

theorem pushAt_getD (ad : List (List Nat)) (i v u : Nat) (hi : i < ad.length) :
    (pushAt ad i v).getD u [] =
      if u = i then ad.getD u [] ++ [v] else ad.getD u [] := by
  unfold pushAt
  by_cases hu : u = i
  · subst hu
    rw [if_pos rfl, getD_eq_get?, List.get?_set_of_lt' _ _ hi, if_pos rfl]
    rfl
  · have hiu : ¬(i = u) := fun h => hu h.symm
    rw [if_neg hu, getD_eq_get?, List.get?_set_of_lt' _ _ hi, if_neg hiu,
      ← getD_eq_get?]

theorem push2_length (ad : List (List Nat)) (e : Nat × Nat) :
    (push2 ad e).length = ad.length := by
  unfold push2
  rw [pushAt_length, pushAt_length]

theorem push2_getD (ad : List (List Nat)) (e : Nat × Nat) (u : Nat)
    (h1 : e.1 < ad.length) (h2 : e.2 < ad.length) (hne : e.1 ≠ e.2) :
    (push2 ad e).getD u [] =
      ad.getD u [] ++
        (if e.1 = u then [e.2] else if e.2 = u then [e.1] else []) := by
  unfold push2
  rw [pushAt_getD _ _ _ _ (by rw [pushAt_length]; exact h2),
    pushAt_getD _ _ _ _ h1]
  by_cases hu1 : u = e.1
  · have hu2 : ¬u = e.2 := by rw [hu1]; exact hne
    have h1 : e.1 = u := hu1.symm
    rw [if_neg hu2, if_pos hu1, if_pos h1]
  · have hne1 : ¬(e.1 = u) := fun h => hu1 h.symm
    rw [if_neg hu1, if_neg hne1]
    by_cases hu2 : u = e.2
    · have h2 : e.2 = u := hu2.symm
      rw [if_pos hu2, if_pos h2]
    · have hne2 : ¬(e.2 = u) := fun h => hu2 h.symm
      rw [if_neg hu2, if_neg hne2, List.append_nil]

theorem foldl_push2_length (es : List (Nat × Nat)) (ad : List (List Nat)) :
    (es.foldl push2 ad).length = ad.length := by
  induction es generalizing ad with
  | nil => rfl
  | cons e es ih => rw [List.foldl_cons, ih, push2_length]

theorem foldl_push2_getD (es : List (Nat × Nat)) (ad : List (List Nat))
    (hb : ∀ e ∈ es, e.1 < ad.length ∧ e.2 < ad.length ∧ e.1 ≠ e.2) (u : Nat) :
    (es.foldl push2 ad).getD u [] = ad.getD u [] ++ contrib es u := by
  induction es generalizing ad with
  | nil => simp [contrib]
  | cons e es ih =>
    obtain ⟨he1, he2, hne⟩ := hb e (List.mem_cons_self _ _)
    rw [List.foldl_cons,
      ih (push2 ad e) (fun f hf => by
        rw [push2_length]
        exact hb f (List.mem_cons_of_mem _ hf)),
      push2_getD ad e u he1 he2 hne, contrib_cons, List.append_assoc]

theorem getD_replicate_nil (n u : Nat) :
    (List.replicate n ([] : List Nat)).getD u [] = [] := by
  rw [getD_eq_get?]
  cases h : (List.replicate n ([] : List Nat)).get? u with
  | none => rfl
  | some l =>
    have := List.get?_mem h
    rw [List.eq_of_mem_replicate this]
    rfl

theorem buildAdjs_length (n : Nat) (es : List (Nat × Nat)) :
    (buildAdjs n es).length = n := by
  unfold buildAdjs
  rw [foldl_push2_length, List.length_replicate]

theorem buildAdjs_getD (n : Nat) (es : List (Nat × Nat))
    (hb : ∀ e ∈ es, e.1 < n ∧ e.2 < n ∧ e.1 ≠ e.2) (u : Nat) :
    (buildAdjs n es).getD u [] = contrib es u := by
  unfold buildAdjs
  rw [foldl_push2_getD es _ (by rw [List.length_replicate]; exact hb) u,
    getD_replicate_nil, List.nil_append]

theorem mem_of_mem_adjs (adjs : List (List Nat)) (l : List Nat)
    (h : l ∈ adjs) : ∃ i < adjs.length, adjs.getD i [] = l := by
  obtain ⟨i, hi⟩ := List.get_of_mem h
  refine ⟨i.1, i.2, ?_⟩
  rw [getD_eq_get?, List.get?_eq_get i.2, hi]
  rfl

/-- The common shape of the generator constructors: adjacency lists built by
`buildAdjs` from an edge list with in-range distinct endpoints and per-node
contributions strictly increasing satisfy all compact-graph invariants. -/
theorem buildAdjs_compactWF (nm : String) (n mm : Nat) (es : List (Nat × Nat))
    (hb : ∀ e ∈ es, e.1 < n ∧ e.2 < n ∧ e.1 ≠ e.2)
    (hsorted : ∀ u, List.Pairwise (· < ·) (contrib es u)) :
    CompactWF ⟨nm, n, mm, buildAdjs n es⟩ := by
  have hget := buildAdjs_getD n es hb
  refine ⟨buildAdjs_length n es, ?_, ?_, ?_, ?_⟩
  · intro l hl
    obtain ⟨i, hilt, hi⟩ := mem_of_mem_adjs _ _ hl
    rw [← hi, hget i]
    exact hsorted i
  · intro l hl
    obtain ⟨i, hilt, hi⟩ := mem_of_mem_adjs _ _ hl
    rw [← hi, hget i]
    exact (hsorted i).imp Nat.ne_of_lt
  · intro u hu hcon
    rw [hget u] at hcon
    rcases mem_contrib.mp hcon with h | h <;>
      exact (hb _ h).2.2 rfl
  · intro u hu v hv
    rw [hget u, hget v, mem_contrib, mem_contrib]
    tauto

/-! ## The pseudofractal generators satisfy the invariants -/

theorem mem_bridge_block {m u v c : Nat} {e : Nat × Nat} :
    e ∈ (List.range m).flatMap (fun j => [(u, c + j), (v, c + j)]) ↔
      ∃ j < m, e = (u, c + j) ∨ e = (v, c + j) := by
  simp only [List.mem_flatMap, List.mem_range, List.mem_cons,
    List.mem_singleton, List.not_mem_nil, or_false]

theorem contrib_bridge_old {m u v c : Nat} (t : Nat) (ht : t = u ∨ t = v)
    (huv : u < v) (hv : v < c) :
    contrib ((List.range m).flatMap fun j => [(u, c + j), (v, c + j)]) t =
      (List.range m).map (c + ·) := by
  induction m with
  | zero => rfl
  | succ m ih =>
    rw [List.range_succ, List.flatMap_append, contrib_append, ih,
      List.map_append]
    congr 1
    rcases ht with h | h <;> subst h
    · have h1 : ¬v = t := by omega
      have h2 : ¬c + m = t := by omega
      simp [contrib, h1, h2]
    · have h1 : ¬u = t := by omega
      have h2 : ¬c + m = t := by omega
      simp [contrib, h1, h2]

theorem contrib_bridge_outside {m u v c : Nat} (t : Nat) (h1 : t ≠ u)
    (h2 : t ≠ v) (h3 : t < c ∨ c + m ≤ t) :
    contrib ((List.range m).flatMap fun j => [(u, c + j), (v, c + j)]) t =
      [] := by
  apply contrib_nil_outside
  intro e he
  obtain ⟨j, hj, h | h⟩ := mem_bridge_block.mp he <;> subst h
  · exact ⟨fun hc => h1 hc.symm, by simp only; omega⟩
  · exact ⟨fun hc => h2 hc.symm, by simp only; omega⟩

theorem contrib_bridge_fresh {m u v c : Nat} (j : Nat) (hj : j < m)
    (hu : u < c) (hv : v < c) (huv : u ≠ v) :
    contrib ((List.range m).flatMap fun j => [(u, c + j), (v, c + j)])
      (c + j) = [u, v] := by
  induction m with
  | zero => omega
  | succ m ih =>
    rw [List.range_succ, List.flatMap_append, contrib_append]
    by_cases hjm : j = m
    · subst hjm
      rw [contrib_bridge_outside (c + j) (by omega) (by omega) (by omega)]
      have h1 : ¬u = c + j := by omega
      have h2 : ¬v = c + j := by omega
      simp [contrib, h1, h2]
    · rw [ih (by omega)]
      have h1 : ¬u = c + j := by omega
      have h2 : ¬v = c + j := by omega
      have h3 : ¬(c + m = c + j) := by omega
      simp [contrib, h1, h2, h3]

theorem pairwise_lt_map_range_add (m c : Nat) :
    List.Pairwise (· < ·) ((List.range m).map (c + ·)) := by
  rw [List.pairwise_map]
  exact List.pairwise_lt_range m |>.imp (by omega)

theorem bridgeEdges_spec (m : Nat) :
    ∀ (es : List (Nat × Nat)) (c₀ c : Nat), c₀ ≤ c →
    (∀ e ∈ es, e.1 < e.2 ∧ e.2 < c₀) →
    (∀ e ∈ (bridgeEdges m es c).1,
      e.1 < c₀ ∧ c ≤ e.2 ∧ e.2 < (bridgeEdges m es c).2) ∧
    (∀ t, List.Pairwise (· < ·) (contrib (bridgeEdges m es c).1 t) ∧
      (t < c → ∀ x ∈ contrib (bridgeEdges m es c).1 t,
        c ≤ x ∧ x < (bridgeEdges m es c).2) ∧
      (c ≤ t → ∀ x ∈ contrib (bridgeEdges m es c).1 t, x < c₀)) := by
  intro es
  induction es with
  | nil =>
    intro c₀ c hc hb
    refine ⟨by simp [bridgeEdges], fun t => ?_⟩
    simp [bridgeEdges, contrib]
  | cons e es ih =>
    intro c₀ c hc hb
    obtain ⟨u, v⟩ := e
    obtain ⟨huv, hvc⟩ := hb (u, v) (List.mem_cons_self _ _)
    simp only at huv hvc
    have hb' : ∀ e ∈ es, e.1 < e.2 ∧ e.2 < c₀ :=
      fun f hf => hb f (List.mem_cons_of_mem _ hf)
    obtain ⟨ih1, ih2⟩ := ih c₀ (c + m) (by omega) hb'
    have hcnt : (bridgeEdges m es (c + m)).2 = c + m + m * es.length :=
      bridgeEdges_counter m es (c + m)
    have hstep : bridgeEdges m ((u, v) :: es) c =
        (((List.range m).flatMap fun j => [(u, c + j), (v, c + j)]) ++
          (bridgeEdges m es (c + m)).1, (bridgeEdges m es (c + m)).2) := rfl
    rw [hstep]
    dsimp only
    constructor
    · intro e he
      rcases List.mem_append.mp he with h | h
      · obtain ⟨j, hj, h | h⟩ := mem_bridge_block.mp h <;> subst h <;>
          exact ⟨by omega, by simp only; omega, by simp only; omega⟩
      · obtain ⟨ha, hb2, hc2⟩ := ih1 e h
        exact ⟨ha, by omega, hc2⟩
    · intro t
      rw [contrib_append]
      obtain ⟨ihp, ihlo, ihhi⟩ := ih2 t
      by_cases htu : t = u ∨ t = v
      · have htc : t < c := by rcases htu with h | h <;> omega
        rw [contrib_bridge_old t htu huv (by omega)]
        refine ⟨?_, fun _ x hx => ?_, fun hct _ _ => absurd htc (by omega)⟩
        · rw [List.pairwise_append]
          refine ⟨pairwise_lt_map_range_add m c, ihp, ?_⟩
          intro a ha b hb2
          obtain ⟨j, hj, hje⟩ := List.mem_map.mp ha
          have := (ihlo (by omega) b hb2).1
          rw [← hje]
          simp only [List.mem_range] at hj
          omega
        · rcases List.mem_append.mp hx with h | h
          · obtain ⟨j, hj, hje⟩ := List.mem_map.mp h
            simp only [List.mem_range] at hj
            constructor <;> omega
          · have := ihlo (by omega) x h
            constructor <;> omega
      · push_neg at htu
        by_cases htc : t < c
        · rw [contrib_bridge_outside t htu.1 htu.2 (Or.inl htc),
            List.nil_append]
          refine ⟨ihp, fun _ x hx => ?_, fun hct => absurd htc (by omega)⟩
          have := ihlo (by omega) x hx
          constructor <;> omega
        · push_neg at htc
          by_cases htm : t < c + m
          · have hrest : contrib (bridgeEdges m es (c + m)).1 t = [] := by
              apply contrib_nil_outside
              intro f hf
              obtain ⟨ha, hb2, hc2⟩ := ih1 f hf
              constructor <;> omega
            have hfresh : contrib
                ((List.range m).flatMap fun j => [(u, c + j), (v, c + j)])
                t = [u, v] := by
              have ht : t = c + (t - c) := by omega
              rw [ht]
              exact contrib_bridge_fresh (t - c) (by omega) (by omega)
                (by omega) (by omega)
            rw [hrest, hfresh, List.append_nil]
            refine ⟨?_, fun h => absurd h (by omega), fun _ x hx => ?_⟩
            · exact List.pairwise_cons.mpr ⟨by simp; omega, by simp⟩
            · rcases List.mem_cons.mp hx with h | h
              · omega
              · simp only [List.mem_singleton] at h
                omega
          · rw [contrib_bridge_outside t htu.1 htu.2 (by omega),
              List.nil_append]
            refine ⟨ihp, fun h => absurd h (by omega), fun _ x hx => ?_⟩
            exact ihhi (by omega) x hx

/-- Invariant of the pseudofractal generation loop: canonical in-range
edges, and per-node neighbor contributions strictly ascending and in
range. -/
theorem pseudoGen_inv (m g : Nat) :
    (∀ e ∈ (pseudoGen m g).1, e.1 < e.2 ∧ e.2 < (pseudoGen m g).2) ∧
    (∀ t, List.Pairwise (· < ·) (contrib (pseudoGen m g).1 t) ∧
      ∀ x ∈ contrib (pseudoGen m g).1 t, x < (pseudoGen m g).2) := by
  induction g with
  | zero =>
    have h00 : pseudoGen m 0 = ([(0, 1), (0, 2), (1, 2)], 3) := rfl
    rw [h00]
    dsimp only
    refine ⟨by decide, fun t => ?_⟩
    by_cases h0 : t = 0
    · subst h0; exact ⟨by decide, by decide⟩
    by_cases h1 : t = 1
    · subst h1; exact ⟨by decide, by decide⟩
    by_cases h2 : t = 2
    · subst h2; exact ⟨by decide, by decide⟩
    rw [show contrib [(0, 1), (0, 2), (1, 2)] t = [] from
      contrib_nil_outside _ _ (by
        intro e he
        fin_cases he <;> exact ⟨by omega, by omega⟩)]
    exact ⟨List.Pairwise.nil, by simp⟩
  | succ g ih =>
    obtain ⟨hb, hc⟩ := ih
    obtain ⟨h1, h2⟩ :=
      bridgeEdges_spec m (pseudoGen m g).1 (pseudoGen m g).2 (pseudoGen m g).2
        le_rfl hb
    have hcnt : (bridgeEdges m (pseudoGen m g).1 (pseudoGen m g).2).2 =
        (pseudoGen m g).2 + m * (pseudoGen m g).1.length :=
      bridgeEdges_counter m _ _
    have hstep : pseudoGen m (g + 1) =
        ((pseudoGen m g).1 ++
            (bridgeEdges m (pseudoGen m g).1 (pseudoGen m g).2).1,
          (bridgeEdges m (pseudoGen m g).1 (pseudoGen m g).2).2) := rfl
    rw [hstep]
    dsimp only
    constructor
    · intro e he
      rcases List.mem_append.mp he with h | h
      · obtain ⟨ha, hb2⟩ := hb e h
        exact ⟨ha, by omega⟩
      · obtain ⟨ha, hb2, hc2⟩ := h1 e h
        exact ⟨by omega, hc2⟩
    · intro t
      rw [contrib_append]
      obtain ⟨hp1, hlo, hhi⟩ := h2 t
      by_cases htc : t < (pseudoGen m g).2
      · refine ⟨?_, fun x hx => ?_⟩
        · rw [List.pairwise_append]
          refine ⟨(hc t).1, hp1, fun a ha b hb2 => ?_⟩
          have h3 := (hc t).2 a ha
          have h4 := (hlo htc b hb2).1
          omega
        · rcases List.mem_append.mp hx with h | h
          · have := (hc t).2 x h
            omega
          · exact (hlo htc x h).2
      · have hold : contrib (pseudoGen m g).1 t = [] := by
          apply contrib_nil_outside
          intro e he
          obtain ⟨ha, hb2⟩ := hb e he
          constructor <;> omega
        rw [hold, List.nil_append]
        refine ⟨hp1, fun x hx => ?_⟩
        have := hhi (by omega) x hx
        omega

/-- The extended pseudofractal constructor (any name, any `m`, any number
of generations) satisfies the compact-graph invariants. -/
theorem fromPseudoExtNamed_compactWF (m g : Nat) (nm : String) :
    CompactWF (fromPseudoExtNamed m g nm) := by
  obtain ⟨hb, hc⟩ := pseudoGen_inv m g
  exact buildAdjs_compactWF nm (pseudoGen m g).2 (pseudoGen m g).1.length
    (pseudoGen m g).1
    (fun e he => ⟨lt_trans (hb e he).1 (hb e he).2, (hb e he).2,
      Nat.ne_of_lt (hb e he).1⟩)
    (fun u => (hc u).1)

/-! ## The Koch generator satisfies the invariants -/

theorem contribT_append (ts us : List (Nat × Nat × Nat)) (u : Nat) :
    contribT (ts ++ us) u = contribT ts u ++ contribT us u :=
  List.flatMap_append ts us _

theorem contribT_cons (t : Nat × Nat × Nat) (ts : List (Nat × Nat × Nat))
    (u : Nat) :
    contribT (t :: ts) u =
      (if t.1 = u then [t.2.1, t.2.2]
       else if t.2.1 = u then [t.1, t.2.2]
       else if t.2.2 = u then [t.1, t.2.1]
       else []) ++ contribT ts u :=
  List.flatMap_cons _ _ _

theorem contribT_nil_outside (ts : List (Nat × Nat × Nat)) (u : Nat)
    (h : ∀ t ∈ ts, t.1 ≠ u ∧ t.2.1 ≠ u ∧ t.2.2 ≠ u) : contribT ts u = [] := by
  induction ts with
  | nil => rfl
  | cons t ts ih =>
    obtain ⟨h1, h2, h3⟩ := h t (List.mem_cons_self _ _)
    rw [contribT_cons, if_neg h1, if_neg h2, if_neg h3,
      ih fun f hf => h f (List.mem_cons_of_mem _ hf), List.append_nil]

theorem mem_contribT {ts : List (Nat × Nat × Nat)} {u v : Nat}
    (hd : ∀ t ∈ ts, t.1 < t.2.1 ∧ t.2.1 < t.2.2) :
    v ∈ contribT ts u ↔
      ∃ t ∈ ts, u ≠ v ∧ (u = t.1 ∨ u = t.2.1 ∨ u = t.2.2) ∧
        (v = t.1 ∨ v = t.2.1 ∨ v = t.2.2) := by
  induction ts with
  | nil => simp [contribT]
  | cons t ts ih =>
    rw [contribT_cons, List.mem_append,
      ih fun f hf => hd f (List.mem_cons_of_mem _ hf)]
    have hh := hd t (List.mem_cons_self _ _)
    obtain ⟨x, yz⟩ := t
    obtain ⟨y, z⟩ := yz
    simp only at hh
    have hhead : v ∈ (if x = u then [y, z]
        else if y = u then [x, z]
        else if z = u then [x, y]
        else []) ↔
        (u ≠ v ∧ (u = x ∨ u = y ∨ u = z) ∧ (v = x ∨ v = y ∨ v = z)) := by
      by_cases hux : x = u
      · rw [if_pos hux]
        simp only [List.mem_cons, List.mem_singleton, List.not_mem_nil,
          or_false]
        omega
      · rw [if_neg hux]
        by_cases huy : y = u
        · rw [if_pos huy]
          simp only [List.mem_cons, List.mem_singleton, List.not_mem_nil,
            or_false]
          omega
        · rw [if_neg huy]
          by_cases huz : z = u
          · rw [if_pos huz]
            simp only [List.mem_cons, List.mem_singleton, List.not_mem_nil,
              or_false]
            omega
          · rw [if_neg huz]
            simp only [List.not_mem_nil, false_iff]
            omega
    rw [hhead]
    constructor
    · rintro (h | ⟨f, hf, hp⟩)
      · exact ⟨(x, y, z), List.mem_cons_self _ _, h⟩
      · exact ⟨f, List.mem_cons_of_mem _ hf, hp⟩
    · rintro ⟨f, hf, hp⟩
      rcases List.mem_cons.mp hf with h | h
      · left; rw [h] at hp; exact hp
      · right; exact ⟨f, h, hp⟩

theorem pushAt2_length (ad : List (List Nat)) (i a b : Nat) :
    (pushT.pushAt2 ad i a b).length = ad.length := by
  unfold pushT.pushAt2
  exact List.length_set ad i _

theorem pushAt2_getD (ad : List (List Nat)) (i a b u : Nat)
    (hi : i < ad.length) :
    (pushT.pushAt2 ad i a b).getD u [] =
      if u = i then ad.getD u [] ++ [a, b] else ad.getD u [] := by
  unfold pushT.pushAt2
  by_cases hu : u = i
  · subst hu
    rw [if_pos rfl, getD_eq_get?, List.get?_set_of_lt' _ _ hi, if_pos rfl]
    rfl
  · have hiu : ¬(i = u) := fun h => hu h.symm
    rw [if_neg hu, getD_eq_get?, List.get?_set_of_lt' _ _ hi, if_neg hiu,
      ← getD_eq_get?]

theorem pushT_length (ad : List (List Nat)) (t : Nat × Nat × Nat) :
    (pushT ad t).length = ad.length := by
  unfold pushT
  rw [pushAt2_length, pushAt2_length, pushAt2_length]

theorem pushT_getD (ad : List (List Nat)) (t : Nat × Nat × Nat) (u : Nat)
    (h1 : t.1 < ad.length) (h2 : t.2.1 < ad.length) (h3 : t.2.2 < ad.length)
    (hd1 : t.1 < t.2.1) (hd2 : t.2.1 < t.2.2) :
    (pushT ad t).getD u [] =
      ad.getD u [] ++
        (if t.1 = u then [t.2.1, t.2.2]
         else if t.2.1 = u then [t.1, t.2.2]
         else if t.2.2 = u then [t.1, t.2.1]
         else []) := by
  unfold pushT
  rw [pushAt2_getD _ _ _ _ _ (by rw [pushAt2_length, pushAt2_length]; exact h3),
    pushAt2_getD _ _ _ _ _ (by rw [pushAt2_length]; exact h2),
    pushAt2_getD _ _ _ _ _ h1]
  by_cases hu1 : u = t.1
  · have c1 : ¬u = t.2.2 := by omega
    have c2 : ¬u = t.2.1 := by omega
    have c3 : t.1 = u := hu1.symm
    rw [if_neg c1, if_neg c2, if_pos hu1, if_pos c3]
  · have c3 : ¬(t.1 = u) := fun h => hu1 h.symm
    rw [if_neg hu1]
    by_cases hu2 : u = t.2.1
    · have c1 : ¬u = t.2.2 := by omega
      have c4 : t.2.1 = u := hu2.symm
      rw [if_neg c1, if_pos hu2, if_neg c3, if_pos c4]
    · have c4 : ¬(t.2.1 = u) := fun h => hu2 h.symm
      rw [if_neg hu2]
      by_cases hu3 : u = t.2.2
      · have c5 : t.2.2 = u := hu3.symm
        rw [if_pos hu3, if_neg c3, if_neg c4, if_pos c5]
      · have c5 : ¬(t.2.2 = u) := fun h => hu3 h.symm
        rw [if_neg hu3, if_neg c3, if_neg c4, if_neg c5, List.append_nil]

theorem foldl_pushT_length (ts : List (Nat × Nat × Nat))
    (ad : List (List Nat)) : (ts.foldl pushT ad).length = ad.length := by
  induction ts generalizing ad with
  | nil => rfl
  | cons t ts ih => rw [List.foldl_cons, ih, pushT_length]

theorem foldl_pushT_getD (ts : List (Nat × Nat × Nat)) (ad : List (List Nat))
    (hb : ∀ t ∈ ts, t.1 < t.2.1 ∧ t.2.1 < t.2.2 ∧ t.2.2 < ad.length)
    (u : Nat) :
    (ts.foldl pushT ad).getD u [] = ad.getD u [] ++ contribT ts u := by
  induction ts generalizing ad with
  | nil => simp [contribT]
  | cons t ts ih =>
    obtain ⟨hd1, hd2, hlt⟩ := hb t (List.mem_cons_self _ _)
    rw [List.foldl_cons,
      ih (pushT ad t) (fun f hf => by
        rw [pushT_length]
        exact hb f (List.mem_cons_of_mem _ hf)),
      pushT_getD ad t u (by omega) (by omega) hlt hd1 hd2, contribT_cons,
      List.append_assoc]

/-- Triangle analogue of `buildAdjs_compactWF`. -/
theorem buildAdjsT_compactWF (nm : String) (n mm : Nat)
    (ts : List (Nat × Nat × Nat))
    (hb : ∀ t ∈ ts, t.1 < t.2.1 ∧ t.2.1 < t.2.2 ∧ t.2.2 < n)
    (hsorted : ∀ u, List.Pairwise (· < ·) (contribT ts u)) :
    CompactWF ⟨nm, n, mm, ts.foldl pushT (List.replicate n [])⟩ := by
  have hd : ∀ t ∈ ts, t.1 < t.2.1 ∧ t.2.1 < t.2.2 :=
    fun t ht => ⟨(hb t ht).1, (hb t ht).2.1⟩
  have hget : ∀ u, (ts.foldl pushT (List.replicate n [])).getD u [] =
      contribT ts u := by
    intro u
    rw [foldl_pushT_getD ts _ (by rw [List.length_replicate]; exact hb) u,
      getD_replicate_nil, List.nil_append]
  refine ⟨by rw [foldl_pushT_length, List.length_replicate], ?_, ?_, ?_, ?_⟩
  · intro l hl
    obtain ⟨i, hilt, hi⟩ := mem_of_mem_adjs _ _ hl
    rw [← hi, hget i]
    exact hsorted i
  · intro l hl
    obtain ⟨i, hilt, hi⟩ := mem_of_mem_adjs _ _ hl
    rw [← hi, hget i]
    exact (hsorted i).imp Nat.ne_of_lt
  · intro u hu hcon
    rw [hget u] at hcon
    obtain ⟨t, ht, hne, _⟩ := (mem_contribT hd).mp hcon
    exact hne rfl
  · intro u hu v hv
    rw [hget u, hget v, mem_contribT hd, mem_contribT hd]
    constructor
    · rintro ⟨t, ht, hne, hcu, hcv⟩
      exact ⟨t, ht, fun h => hne h.symm, hcv, hcu⟩
    · rintro ⟨t, ht, hne, hcv, hcu⟩
      exact ⟨t, ht, fun h => hne h.symm, hcu, hcv⟩

theorem kochStep_spec :
    ∀ (ts : List (Nat × Nat × Nat)) (c₀ c : Nat), c₀ ≤ c →
    (∀ t ∈ ts, t.1 < t.2.1 ∧ t.2.1 < t.2.2 ∧ t.2.2 < c₀) →
    (∀ t ∈ (kochStep ts c).1,
      t.1 < c₀ ∧ c ≤ t.2.1 ∧ t.2.1 < t.2.2 ∧ t.2.2 < (kochStep ts c).2) ∧
    (∀ u, List.Pairwise (· < ·) (contribT (kochStep ts c).1 u) ∧
      (u < c → ∀ x ∈ contribT (kochStep ts c).1 u,
        c ≤ x ∧ x < (kochStep ts c).2) ∧
      (c ≤ u → ∀ x ∈ contribT (kochStep ts c).1 u,
        x < (kochStep ts c).2)) := by
  intro ts
  induction ts with
  | nil =>
    intro c₀ c hc hb
    exact ⟨by simp [kochStep], fun u => by simp [kochStep, contribT]⟩
  | cons t ts ih =>
    intro c₀ c hc hb
    obtain ⟨x, yz⟩ := t
    obtain ⟨y, z⟩ := yz
    obtain ⟨hx, hy, hz⟩ := hb (x, y, z) (List.mem_cons_self _ _)
    simp only at hx hy hz
    have hb' : ∀ t ∈ ts, t.1 < t.2.1 ∧ t.2.1 < t.2.2 ∧ t.2.2 < c₀ :=
      fun f hf => hb f (List.mem_cons_of_mem _ hf)
    obtain ⟨ih1, ih2⟩ := ih c₀ (c + 6) (by omega) hb'
    have hcnt : (kochStep ts (c + 6)).2 = c + 6 + 6 * ts.length :=
      kochStep_counter ts (c + 6)
    have hstep : kochStep ((x, y, z) :: ts) c =
        ((x, c, c + 1) :: (y, c + 2, c + 3) :: (z, c + 4, c + 5) ::
          (kochStep ts (c + 6)).1, (kochStep ts (c + 6)).2) := rfl
    rw [hstep]
    dsimp only
    constructor
    · intro t ht
      rcases List.mem_cons.mp ht with h | h
      · subst h; dsimp only; exact ⟨by omega, by omega, by omega, by omega⟩
      rcases List.mem_cons.mp h with h | h
      · subst h; dsimp only; exact ⟨by omega, by omega, by omega, by omega⟩
      rcases List.mem_cons.mp h with h | h
      · subst h; dsimp only; exact ⟨by omega, by omega, by omega, by omega⟩
      obtain ⟨ha, hb2, hc2, hd2⟩ := ih1 t h
      exact ⟨ha, by omega, hc2, hd2⟩
    · intro u
      rw [contribT_cons, contribT_cons, contribT_cons]
      dsimp only
      obtain ⟨ihp, ihlo, ihhi⟩ := ih2 u
      by_cases hu1 : u = x
      · have e1 : x = u := hu1.symm
        rw [if_pos e1, if_neg (show ¬(y = u) by omega),
          if_neg (show ¬(c + 2 = u) by omega),
          if_neg (show ¬(c + 3 = u) by omega),
          if_neg (show ¬(z = u) by omega),
          if_neg (show ¬(c + 4 = u) by omega),
          if_neg (show ¬(c + 5 = u) by omega), List.nil_append,
          List.nil_append]
        refine ⟨?_, fun _ w hw => ?_, fun hcu => absurd hcu (by omega)⟩
        · rw [show ([c, c + 1] : List Nat) ++ contribT (kochStep ts (c + 6)).1 u
            = c :: (c + 1) :: contribT (kochStep ts (c + 6)).1 u from rfl]
          refine List.pairwise_cons.mpr ⟨?_, List.pairwise_cons.mpr ⟨?_, ihp⟩⟩
          · intro w hw
            rcases List.mem_cons.mp hw with h | h
            · omega
            · have := (ihlo (by omega) w h).1; omega
          · intro w hw
            have := (ihlo (by omega) w hw).1; omega
        · rcases List.mem_append.mp hw with h | h
          · rcases List.mem_cons.mp h with h | h
            · omega
            · simp only [List.mem_singleton] at h; omega
          · have := ihlo (by omega) w h; omega
      by_cases hu2 : u = y
      · have e1 : y = u := hu2.symm
        rw [if_neg (show ¬(x = u) by omega),
          if_neg (show ¬(c = u) by omega),
          if_neg (show ¬(c + 1 = u) by omega), if_pos e1,
          if_neg (show ¬(z = u) by omega),
          if_neg (show ¬(c + 4 = u) by omega),
          if_neg (show ¬(c + 5 = u) by omega), List.nil_append,
          List.nil_append]
        refine ⟨?_, fun _ w hw => ?_, fun hcu => absurd hcu (by omega)⟩
        · rw [show ([c + 2, c + 3] : List Nat) ++
            contribT (kochStep ts (c + 6)).1 u
            = (c + 2) :: (c + 3) :: contribT (kochStep ts (c + 6)).1 u from rfl]
          refine List.pairwise_cons.mpr ⟨?_, List.pairwise_cons.mpr ⟨?_, ihp⟩⟩
          · intro w hw
            rcases List.mem_cons.mp hw with h | h
            · omega
            · have := (ihlo (by omega) w h).1; omega
          · intro w hw
            have := (ihlo (by omega) w hw).1; omega
        · rcases List.mem_append.mp hw with h | h
          · rcases List.mem_cons.mp h with h | h
            · omega
            · simp only [List.mem_singleton] at h; omega
          · have := ihlo (by omega) w h; omega
      by_cases hu3 : u = z
      · have e1 : z = u := hu3.symm
        rw [if_neg (show ¬(x = u) by omega),
          if_neg (show ¬(c = u) by omega),
          if_neg (show ¬(c + 1 = u) by omega),
          if_neg (show ¬(y = u) by omega),
          if_neg (show ¬(c + 2 = u) by omega),
          if_neg (show ¬(c + 3 = u) by omega), if_pos e1, List.nil_append,
          List.nil_append]
        refine ⟨?_, fun _ w hw => ?_, fun hcu => absurd hcu (by omega)⟩
        · rw [show ([c + 4, c + 5] : List Nat) ++
            contribT (kochStep ts (c + 6)).1 u
            = (c + 4) :: (c + 5) :: contribT (kochStep ts (c + 6)).1 u from rfl]
          refine List.pairwise_cons.mpr ⟨?_, List.pairwise_cons.mpr ⟨?_, ihp⟩⟩
          · intro w hw
            rcases List.mem_cons.mp hw with h | h
            · omega
            · have := (ihlo (by omega) w h).1; omega
          · intro w hw
            have := (ihlo (by omega) w hw).1; omega
        · rcases List.mem_append.mp hw with h | h
          · rcases List.mem_cons.mp h with h | h
            · omega
            · simp only [List.mem_singleton] at h; omega
          · have := ihlo (by omega) w h; omega
      by_cases huc : u < c
      · rw [if_neg (show ¬(x = u) by omega),
          if_neg (show ¬(c = u) by omega),
          if_neg (show ¬(c + 1 = u) by omega),
          if_neg (show ¬(y = u) by omega),
          if_neg (show ¬(c + 2 = u) by omega),
          if_neg (show ¬(c + 3 = u) by omega),
          if_neg (show ¬(z = u) by omega),
          if_neg (show ¬(c + 4 = u) by omega),
          if_neg (show ¬(c + 5 = u) by omega), List.nil_append,
          List.nil_append, List.nil_append]
        refine ⟨ihp, fun _ w hw => ?_, fun hcu => absurd hcu (by omega)⟩
        have := ihlo (by omega) w hw
        omega
      by_cases hu6 : u < c + 6
      · -- u is one of the six fresh nodes of this triangle
        have hxne : ¬(x = u) := by omega
        have hyne : ¬(y = u) := by omega
        have hzne : ¬(z = u) := by omega
        have hAfacts : ∀ p fc : Nat, p < c₀ → fc = c ∨ fc = c + 2 ∨ fc = c + 4 →
            List.Pairwise (· < ·) ([p, fc + 1] ++
              contribT (kochStep ts (c + 6)).1 u) ∧
            List.Pairwise (· < ·) ([p, fc] ++
              contribT (kochStep ts (c + 6)).1 u) := by
          intro p fc hp hfc
          constructor <;>
          · refine List.pairwise_cons.mpr ⟨?_, List.pairwise_cons.mpr ⟨?_, ihp⟩⟩
            · intro w hw
              rcases List.mem_cons.mp hw with h | h
              · omega
              · have := (ihlo (by omega) w h).1; omega
            · intro w hw
              have := (ihlo (by omega) w hw).1; omega
        have hBfacts : ∀ p fc : Nat, p < c₀ → fc < c + 6 →
            ∀ w ∈ ([p, fc] ++ contribT (kochStep ts (c + 6)).1 u),
              w < (kochStep ts (c + 6)).2 := by
          intro p fc hp hfc w hw
          rcases List.mem_append.mp hw with h | h
          · rcases List.mem_cons.mp h with h | h
            · omega
            · simp only [List.mem_singleton] at h; omega
          · have := ihlo (by omega) w h; omega
        rcases show u = c ∨ u = c + 1 ∨ u = c + 2 ∨ u = c + 3 ∨ u = c + 4 ∨
            u = c + 5 by omega with h | h | h | h | h | h
        · rw [if_neg hxne, if_pos (show c = u from h.symm),
            if_neg hyne, if_neg (show ¬(c + 2 = u) by omega),
            if_neg (show ¬(c + 3 = u) by omega), if_neg hzne,
            if_neg (show ¬(c + 4 = u) by omega),
            if_neg (show ¬(c + 5 = u) by omega), List.nil_append,
            List.nil_append]
          exact ⟨(hAfacts x c (by omega) (by omega)).1,
            fun hcu => absurd hcu (by omega),
            fun _ => hBfacts x (c + 1) (by omega) (by omega)⟩
        · rw [if_neg hxne, if_neg (show ¬(c = u) by omega),
            if_pos (show c + 1 = u from h.symm), if_neg hyne,
            if_neg (show ¬(c + 2 = u) by omega),
            if_neg (show ¬(c + 3 = u) by omega), if_neg hzne,
            if_neg (show ¬(c + 4 = u) by omega),
            if_neg (show ¬(c + 5 = u) by omega), List.nil_append,
            List.nil_append]
          exact ⟨(hAfacts x c (by omega) (by omega)).2,
            fun hcu => absurd hcu (by omega),
            fun _ => hBfacts x c (by omega) (by omega)⟩
        · rw [if_neg hxne, if_neg (show ¬(c = u) by omega),
            if_neg (show ¬(c + 1 = u) by omega), if_neg hyne,
            if_pos (show c + 2 = u from h.symm),
            if_neg hzne, if_neg (show ¬(c + 4 = u) by omega),
            if_neg (show ¬(c + 5 = u) by omega), List.nil_append,
            List.nil_append]
          exact ⟨(hAfacts y (c + 2) (by omega) (by omega)).1,
            fun hcu => absurd hcu (by omega),
            fun _ => hBfacts y (c + 3) (by omega) (by omega)⟩
        · rw [if_neg hxne, if_neg (show ¬(c = u) by omega),
            if_neg (show ¬(c + 1 = u) by omega), if_neg hyne,
            if_neg (show ¬(c + 2 = u) by omega),
            if_pos (show c + 3 = u from h.symm), if_neg hzne,
            if_neg (show ¬(c + 4 = u) by omega),
            if_neg (show ¬(c + 5 = u) by omega), List.nil_append,
            List.nil_append]
          exact ⟨(hAfacts y (c + 2) (by omega) (by omega)).2,
            fun hcu => absurd hcu (by omega),
            fun _ => hBfacts y (c + 2) (by omega) (by omega)⟩
        · rw [if_neg hxne, if_neg (show ¬(c = u) by omega),
            if_neg (show ¬(c + 1 = u) by omega), if_neg hyne,
            if_neg (show ¬(c + 2 = u) by omega),
            if_neg (show ¬(c + 3 = u) by omega), if_neg hzne,
            if_pos (show c + 4 = u from h.symm),
            List.nil_append, List.nil_append]
          exact ⟨(hAfacts z (c + 4) (by omega) (by omega)).1,
            fun hcu => absurd hcu (by omega),
            fun _ => hBfacts z (c + 5) (by omega) (by omega)⟩
        · rw [if_neg hxne, if_neg (show ¬(c = u) by omega),
            if_neg (show ¬(c + 1 = u) by omega), if_neg hyne,
            if_neg (show ¬(c + 2 = u) by omega),
            if_neg (show ¬(c + 3 = u) by omega), if_neg hzne,
            if_neg (show ¬(c + 4 = u) by omega),
            if_pos (show c + 5 = u from h.symm),
            List.nil_append, List.nil_append]
          exact ⟨(hAfacts z (c + 4) (by omega) (by omega)).2,
            fun hcu => absurd hcu (by omega),
            fun _ => hBfacts z (c + 4) (by omega) (by omega)⟩
      · -- u at or beyond the fresh block
        rw [if_neg (show ¬(x = u) by omega),
          if_neg (show ¬(c = u) by omega),
          if_neg (show ¬(c + 1 = u) by omega),
          if_neg (show ¬(y = u) by omega),
          if_neg (show ¬(c + 2 = u) by omega),
          if_neg (show ¬(c + 3 = u) by omega),
          if_neg (show ¬(z = u) by omega),
          if_neg (show ¬(c + 4 = u) by omega),
          if_neg (show ¬(c + 5 = u) by omega), List.nil_append,
          List.nil_append, List.nil_append]
        exact ⟨ihp, fun hcu => absurd hcu (by omega),
          fun _ w hw => ihhi (by omega) w hw⟩

/-- Invariant of the Koch generation loop: sorted in-range triangles and
strictly ascending in-range neighbor contributions. -/
theorem kochGen_inv (g : Nat) :
    (∀ t ∈ (kochGen g).1,
      t.1 < t.2.1 ∧ t.2.1 < t.2.2 ∧ t.2.2 < (kochGen g).2) ∧
    (∀ u, List.Pairwise (· < ·) (contribT (kochGen g).1 u) ∧
      ∀ x ∈ contribT (kochGen g).1 u, x < (kochGen g).2) := by
  induction g with
  | zero =>
    have h00 : kochGen 0 = ([(0, 1, 2)], 3) := rfl
    rw [h00]
    dsimp only
    refine ⟨by decide, fun u => ?_⟩
    by_cases h0 : u = 0
    · subst h0; exact ⟨by decide, by decide⟩
    by_cases h1 : u = 1
    · subst h1; exact ⟨by decide, by decide⟩
    by_cases h2 : u = 2
    · subst h2; exact ⟨by decide, by decide⟩
    rw [show contribT [(0, 1, 2)] u = [] from
      contribT_nil_outside _ _ (by
        intro t ht
        fin_cases ht
        dsimp only
        exact ⟨by omega, by omega, by omega⟩)]
    exact ⟨List.Pairwise.nil, by simp⟩
  | succ g ih =>
    obtain ⟨hb, hc⟩ := ih
    obtain ⟨h1, h2⟩ :=
      kochStep_spec (kochGen g).1 (kochGen g).2 (kochGen g).2 le_rfl hb
    have hcnt : (kochStep (kochGen g).1 (kochGen g).2).2 =
        (kochGen g).2 + 6 * (kochGen g).1.length :=
      kochStep_counter _ _
    have hstep : kochGen (g + 1) =
        ((kochGen g).1 ++ (kochStep (kochGen g).1 (kochGen g).2).1,
          (kochStep (kochGen g).1 (kochGen g).2).2) := rfl
    rw [hstep]
    dsimp only
    constructor
    · intro t ht
      rcases List.mem_append.mp ht with h | h
      · obtain ⟨ha, hb2, hc2⟩ := hb t h
        exact ⟨ha, hb2, by omega⟩
      · obtain ⟨ha, hb2, hc2, hd2⟩ := h1 t h
        exact ⟨by omega, hc2, hd2⟩
    · intro u
      rw [contribT_append]
      obtain ⟨hp, hlo, hhi⟩ := h2 u
      by_cases huc : u < (kochGen g).2
      · refine ⟨?_, fun x hx => ?_⟩
        · rw [List.pairwise_append]
          refine ⟨(hc u).1, hp, fun a ha b hb2 => ?_⟩
          have h3 := (hc u).2 a ha
          have h4 := (hlo huc b hb2).1
          omega
        · rcases List.mem_append.mp hx with h | h
          · have := (hc u).2 x h
            omega
          · exact (hlo huc x h).2
      · have hold : contribT (kochGen g).1 u = [] := by
          apply contribT_nil_outside
          intro t ht
          obtain ⟨ha, hb2, hc2⟩ := hb t ht
          exact ⟨by omega, by omega, by omega⟩
        rw [hold, List.nil_append]
        exact ⟨hp, fun x hx => hhi (by omega) x hx⟩

/-- The Koch constructor satisfies the compact-graph invariants for every
generation count. -/
theorem fromKoch_compactWF (g : Nat) : CompactWF (fromKoch g) := by
  obtain ⟨hb, hc⟩ := kochGen_inv g
  exact buildAdjsT_compactWF ("Koch_" ++ toString g) (kochGen g).2
    (3 * (kochGen g).1.length) (kochGen g).1 hb (fun u => (hc u).1)

/-! ## The Apollonian generator satisfies the invariants -/

theorem getD_out (ad : List (List Nat)) (u : Nat) (h : ad.length ≤ u) :
    ad.getD u [] = [] := by
  rw [getD_eq_get?, List.get?_eq_none.mpr h]
  rfl

theorem getD_append_left (ad : List (List Nat)) (l : List Nat) (u : Nat)
    (h : u < ad.length) : (ad ++ [l]).getD u [] = ad.getD u [] := by
  rw [getD_eq_get?, List.get?_append h, ← getD_eq_get?]

theorem getD_append_self (ad : List (List Nat)) (l : List Nat) :
    (ad ++ [l]).getD ad.length [] = l := by
  rw [getD_eq_get?, List.get?_concat_length]
  rfl

theorem getD_append_at (ad : List (List Nat)) (l : List Nat) (u : Nat)
    (h : u = ad.length) : (ad ++ [l]).getD u [] = l := by
  rw [h]
  exact getD_append_self ad l

theorem apolloAd_getD (ad : List (List Nat)) (x y z n u : Nat)
    (hxy : x < y) (hyz : y < z) (hzn : z < n) (hlen : ad.length = n) :
    ((pushAt (pushAt (pushAt ad x n) y n) z n) ++ [[x, y, z]]).getD u [] =
      if u = n then [x, y, z]
      else if u = x ∨ u = y ∨ u = z then ad.getD u [] ++ [n]
      else ad.getD u [] := by
  have hx : x < ad.length := by omega
  have hy : y < ad.length := by omega
  have hz : z < ad.length := by omega
  have hA : (pushAt (pushAt (pushAt ad x n) y n) z n).length = n := by
    rw [pushAt_length, pushAt_length, pushAt_length, hlen]
  by_cases hun : u = n
  · rw [if_pos hun]
    exact getD_append_at _ _ _ (by omega)
  · rw [if_neg hun]
    by_cases huin : u < n
    · rw [getD_append_left _ _ _ (by omega),
        pushAt_getD _ _ _ _ (by rw [pushAt_length, pushAt_length]; omega),
        pushAt_getD _ _ _ _ (by rw [pushAt_length]; omega),
        pushAt_getD _ _ _ _ (by omega)]
      by_cases hux : u = x
      · rw [if_pos hux, if_neg (by omega), if_neg (by omega),
          if_pos (by tauto)]
      · rw [if_neg hux]
        by_cases huy : u = y
        · rw [if_pos huy, if_neg (by omega), if_pos (by tauto)]
        · rw [if_neg huy]
          by_cases huz : u = z
          · rw [if_pos huz, if_pos (by tauto)]
          · rw [if_neg huz, if_neg (by tauto)]
    · have hout : n < u := by omega
      rw [if_neg (by omega), getD_out _ _ (by simp [hA]; omega),
        getD_out _ _ (by omega)]

theorem apolloFace_inv (st : List (List Nat) × Nat × List (Nat × Nat × Nat))
    (t : Nat × Nat × Nat) (hst : ApolloInv st)
    (ht : t.1 < t.2.1 ∧ t.2.1 < t.2.2 ∧ t.2.2 < st.2.1) :
    ApolloInv (apolloFace st t) ∧ (apolloFace st t).2.1 = st.2.1 + 1 := by
  obtain ⟨ad, n, acc⟩ := st
  obtain ⟨x, yz⟩ := t
  obtain ⟨y, z⟩ := yz
  simp only at ht
  obtain ⟨hxy, hyz, hzn⟩ := ht
  obtain ⟨hlen, hpb, hsym, hself, hacc⟩ := hst
  have hface : apolloFace (ad, n, acc) (x, y, z) =
      ((pushAt (pushAt (pushAt ad x n) y n) z n) ++ [[x, y, z]], n + 1,
        acc ++ [(x, y, n), (x, z, n), (y, z, n)]) := rfl
  rw [hface]
  simp only [ApolloInv] at hlen hpb hsym hself hacc ⊢
  have hget := fun u => apolloAd_getD ad x y z n u hxy hyz hzn hlen
  refine ⟨⟨?_, ?_, ?_, ?_, ?_⟩, trivial⟩
  · rw [List.length_append, pushAt_length, pushAt_length, pushAt_length, hlen]
    rfl
  · intro u
    rw [hget u]
    by_cases hun : u = n
    · rw [if_pos hun]
      refine ⟨?_, ?_⟩
      · exact List.pairwise_cons.mpr ⟨by
          intro w hw
          rcases List.mem_cons.mp hw with h | h
          · omega
          · simp only [List.mem_singleton] at h; omega,
          List.pairwise_cons.mpr ⟨by
            intro w hw
            simp only [List.mem_singleton] at hw; omega, by simp⟩⟩
      · intro w hw
        rcases List.mem_cons.mp hw with h | h
        · omega
        rcases List.mem_cons.mp h with h | h
        · omega
        · simp only [List.mem_singleton] at h; omega
    · rw [if_neg hun]
      by_cases hmem : u = x ∨ u = y ∨ u = z
      · rw [if_pos hmem]
        refine ⟨?_, ?_⟩
        · rw [List.pairwise_append]
          refine ⟨(hpb u).1, by simp, fun a ha b hb => ?_⟩
          simp only [List.mem_singleton] at hb
          have := (hpb u).2 a ha
          omega
        · intro w hw
          rcases List.mem_append.mp hw with h | h
          · have := (hpb u).2 w h; omega
          · simp only [List.mem_singleton] at h; omega
      · rw [if_neg hmem]
        exact ⟨(hpb u).1, fun w hw => by have := (hpb u).2 w hw; omega⟩
  · intro u v
    rw [hget u, hget v]
    have hbu := fun w hw => (hpb u).2 w hw
    have hbv := fun w hw => (hpb v).2 w hw
    have hnu : n ∉ ad.getD u [] := fun h => by have := hbu n h; omega
    have hnv : n ∉ ad.getD v [] := fun h => by have := hbv n h; omega
    have hvn : ∀ w, n < w → w ∉ ad.getD u [] :=
      fun w hwlt h => by have := hbu w h; omega
    by_cases hun : u = n <;> by_cases hvn' : v = n
    · subst hun; subst hvn'
      simp
    · rw [if_pos hun, if_neg hvn']
      subst hun
      by_cases hvm : v = x ∨ v = y ∨ v = z
      · rw [if_pos hvm]
        simp only [List.mem_cons, List.mem_singleton, List.not_mem_nil,
          or_false, List.mem_append]
        constructor
        · intro h; simp
        · intro h
          tauto
      · rw [if_neg hvm]
        simp only [List.mem_cons, List.mem_singleton, List.not_mem_nil,
          or_false]
        constructor
        · intro h; exact absurd h (by tauto)
        · intro h
          exact absurd (hbv u h) (by omega)
    · rw [if_neg hun, if_pos hvn']
      subst hvn'
      by_cases hum : u = x ∨ u = y ∨ u = z
      · rw [if_pos hum]
        simp only [List.mem_cons, List.mem_singleton, List.not_mem_nil,
          or_false, List.mem_append]
        constructor
        · intro h
          tauto
        · intro h; simp
      · rw [if_neg hum]
        simp only [List.mem_cons, List.mem_singleton, List.not_mem_nil,
          or_false]
        constructor
        · intro h
          exact absurd (hbu v h) (by omega)
        · intro h; exact absurd h (by tauto)
    · rw [if_neg hun, if_neg hvn']
      by_cases hum : u = x ∨ u = y ∨ u = z <;>
        by_cases hvm : v = x ∨ v = y ∨ v = z
      · rw [if_pos hum, if_pos hvm]
        simp only [List.mem_append, List.mem_singleton]
        rw [show (v ∈ ad.getD u [] ↔ u ∈ ad.getD v []) from hsym u v]
        tauto
      · rw [if_pos hum, if_neg hvm]
        simp only [List.mem_append, List.mem_singleton]
        rw [show (v ∈ ad.getD u [] ↔ u ∈ ad.getD v []) from hsym u v]
        constructor
        · rintro (h | h)
          · exact h
          · exact absurd h hvn'
        · intro h; left; exact h
      · rw [if_neg hum, if_pos hvm]
        simp only [List.mem_append, List.mem_singleton]
        rw [show (v ∈ ad.getD u [] ↔ u ∈ ad.getD v []) from hsym u v]
        constructor
        · intro h; left; exact h
        · rintro (h | h)
          · exact h
          · exact absurd h hun
      · rw [if_neg hum, if_neg hvm]
        exact hsym u v
  · intro u
    rw [hget u]
    by_cases hun : u = n
    · rw [if_pos hun]
      subst hun
      intro h
      rcases List.mem_cons.mp h with h | h
      · omega
      rcases List.mem_cons.mp h with h | h
      · omega
      · simp only [List.mem_singleton] at h; omega
    · rw [if_neg hun]
      by_cases hum : u = x ∨ u = y ∨ u = z
      · rw [if_pos hum]
        intro h
        rcases List.mem_append.mp h with h | h
        · exact hself u h
        · simp only [List.mem_singleton] at h
          exact hun h
      · rw [if_neg hum]
        exact hself u
  · intro f hf
    rcases List.mem_append.mp hf with h | h
    · obtain ⟨h1, h2, h3⟩ := hacc f h
      exact ⟨h1, h2, by omega⟩
    rcases List.mem_cons.mp h with h | h
    · subst h; dsimp only; exact ⟨by omega, by omega, by omega⟩
    rcases List.mem_cons.mp h with h | h
    · subst h; dsimp only; exact ⟨by omega, by omega, by omega⟩
    rcases List.mem_cons.mp h with h | h
    · subst h; dsimp only; exact ⟨by omega, by omega, by omega⟩
    · exact absurd h (List.not_mem_nil f)

theorem apolloFold_inv (ts : List (Nat × Nat × Nat))
    (st : List (List Nat) × Nat × List (Nat × Nat × Nat)) (hst : ApolloInv st)
    (hts : ∀ t ∈ ts, t.1 < t.2.1 ∧ t.2.1 < t.2.2 ∧ t.2.2 < st.2.1) :
    ApolloInv (ts.foldl apolloFace st) ∧
      (ts.foldl apolloFace st).2.1 = st.2.1 + ts.length := by
  induction ts generalizing st with
  | nil => exact ⟨hst, rfl⟩
  | cons t ts ih =>
    have h1 := apolloFace_inv st t hst (hts t (List.mem_cons_self t ts))
    have h2 := ih (apolloFace st t) h1.1 (fun s hs => by
      have h3 := hts s (List.mem_cons_of_mem t hs)
      exact ⟨h3.1, h3.2.1, by rw [h1.2]; omega⟩)
    rw [List.foldl_cons]
    exact ⟨h2.1, by rw [h2.2, h1.2, List.length_cons]; omega⟩

theorem apolloStep_inv
    (st : List (Nat × Nat × Nat) × List (List Nat) × Nat × Nat)
    (hst : ApolloStInv st) : ApolloStInv (apolloStep st) := by
  obtain ⟨faces, ad, n, mm⟩ := st
  obtain ⟨hlen, hpb, hsym, hself, hfaces⟩ := hst
  have h0 : ApolloInv (ad, n, []) :=
    ⟨hlen, hpb, hsym, hself, fun t ht => absurd ht (List.not_mem_nil t)⟩
  have hf := apolloFold_inv faces (ad, n, []) h0 hfaces
  obtain ⟨⟨h1, h2, h3, h4, h5⟩, -⟩ := hf
  exact ⟨h1, h2, h3, h4, h5⟩

theorem apolloInit_inv :
    ApolloStInv ([(0, 1, 2), (0, 1, 3), (0, 2, 3), (1, 2, 3)],
      [[1, 2, 3], [0, 2, 3], [0, 1, 3], [0, 1, 2]], 4, 6) := by
  have hlen :
      ([[1, 2, 3], [0, 2, 3], [0, 1, 3], [0, 1, 2]] : List (List Nat)).length
        = 4 := rfl
  have hb : ∀ u, List.Pairwise (· < ·)
        (([[1, 2, 3], [0, 2, 3], [0, 1, 3], [0, 1, 2]] :
          List (List Nat)).getD u []) ∧
      ∀ x ∈ ([[1, 2, 3], [0, 2, 3], [0, 1, 3], [0, 1, 2]] :
          List (List Nat)).getD u [], x < 4 := by
    intro u
    by_cases hu : u < 4
    · interval_cases u <;> exact ⟨by decide, by decide⟩
    · rw [getD_out _ _ (by omega)]
      exact ⟨List.Pairwise.nil, fun x hx => absurd hx (List.not_mem_nil x)⟩
  refine ⟨rfl, hb, ?_, ?_, by decide⟩
  · intro u v
    dsimp only
    by_cases hu : u < 4 <;> by_cases hv : v < 4
    · interval_cases u <;> interval_cases v <;> decide
    · constructor
      · intro h
        exact absurd ((hb u).2 v h) (by omega)
      · intro h
        rw [getD_out _ _ (by omega)] at h
        exact absurd h (List.not_mem_nil u)
    · constructor
      · intro h
        rw [getD_out _ _ (by omega)] at h
        exact absurd h (List.not_mem_nil v)
      · intro h
        exact absurd ((hb v).2 u h) (by omega)
    · constructor
      · intro h
        rw [getD_out _ _ (by omega)] at h
        exact absurd h (List.not_mem_nil v)
      · intro h
        rw [getD_out _ _ (by omega)] at h
        exact absurd h (List.not_mem_nil u)
  · intro u
    dsimp only
    by_cases hu : u < 4
    · interval_cases u <;> decide
    · rw [getD_out _ _ (by omega)]
      exact List.not_mem_nil u

theorem apolloIter_inv (g : Nat) : ApolloStInv (apolloIter g) := by
  induction g with
  | zero => exact apolloInit_inv
  | succ g ih =>
    unfold apolloIter
    rw [Function.iterate_succ_apply']
    exact apolloStep_inv _ ih

theorem fromApollo_compactWF (g : Nat) : CompactWF (fromApollo g) := by
  obtain ⟨hlen, hpb, hsym, hself, -⟩ := apolloIter_inv g
  refine ⟨hlen, ?_, ?_, ?_, ?_⟩
  · intro l hl
    obtain ⟨i, hilt, hi⟩ := mem_of_mem_adjs _ _ hl
    rw [← hi]
    exact (hpb i).1
  · intro l hl
    obtain ⟨i, hilt, hi⟩ := mem_of_mem_adjs _ _ hl
    rw [← hi]
    exact ((hpb i).1).imp Nat.ne_of_lt
  · intro u hu
    exact hself u
  · intro u hu v hv
    exact hsym u v

/-! ## `from_general` satisfies the invariants -/

theorem lookup_cons_eq (l : List (Nat × Nat)) (k v : Nat) :
    ((k, v) :: l).lookup k = some v := by
  simp [List.lookup]

theorem lookup_cons_ne (l : List (Nat × Nat)) (a b k : Nat) (h : k ≠ a) :
    ((a, b) :: l).lookup k = l.lookup k := by
  have hb : (k == a) = false := by simp [h]
  simp [List.lookup, hb]

theorem lookup_isSome_iff (l : List (Nat × Nat)) (k : Nat) :
    (l.lookup k).isSome ↔ k ∈ l.map Prod.fst := by
  induction l with
  | nil => simp [List.lookup]
  | cons p l ih =>
    obtain ⟨a, b⟩ := p
    by_cases h : k = a
    · subst h
      rw [lookup_cons_eq]
      simp
    · rw [lookup_cons_ne _ _ _ _ h]
      simp [ih, h]

theorem lookup_mem (l : List (Nat × Nat)) (k v : Nat)
    (h : l.lookup k = some v) : (k, v) ∈ l := by
  induction l with
  | nil => simp [List.lookup] at h
  | cons p l ih =>
    obtain ⟨a, b⟩ := p
    by_cases hk : k = a
    · subst hk
      rw [lookup_cons_eq] at h
      obtain rfl : v = b := by injection h with h; exact h.symm
      exact List.mem_cons_self _ _
    · rw [lookup_cons_ne _ _ _ _ hk] at h
      exact List.mem_cons_of_mem _ (ih h)

theorem getD_map_lt (l : List (List Nat)) (f : List Nat → List Nat) (u : Nat)
    (h : u < l.length) : (l.map f).getD u [] = f (l.getD u []) := by
  rw [List.getD_eq_getElem?_getD, List.getElem?_map, List.getD_eq_getElem?_getD,
    List.getElem?_eq_getElem h]
  rfl

theorem snd_range_val_lt (l : List (Nat × Nat)) (k v : Nat)
    (h : l.map Prod.snd = List.range l.length) (hm : (k, v) ∈ l) :
    v < l.length := by
  have h2 : v ∈ l.map Prod.snd := List.mem_map.mpr ⟨(k, v), hm, rfl⟩
  rw [h] at h2
  exact List.mem_range.mp h2

theorem snd_range_inj (l : List (Nat × Nat)) (k1 k2 v : Nat)
    (h : l.map Prod.snd = List.range l.length)
    (h1 : (k1, v) ∈ l) (h2 : (k2, v) ∈ l) : k1 = k2 := by
  obtain ⟨i1, hi1⟩ := List.get_of_mem h1
  obtain ⟨i2, hi2⟩ := List.get_of_mem h2
  have e1 : (l.map Prod.snd).get? i1.1 = (List.range l.length).get? i1.1 := by
    rw [h]
  have e2 : (l.map Prod.snd).get? i2.1 = (List.range l.length).get? i2.1 := by
    rw [h]
  rw [List.get?_map, List.get?_eq_get i1.2,
    List.get?_range (by simpa using i1.2)] at e1
  rw [List.get?_map, List.get?_eq_get i2.2,
    List.get?_range (by simpa using i2.2)] at e2
  rw [hi1] at e1
  rw [hi2] at e2
  have hv1 : v = i1.1 := by simpa using e1
  have hv2 : v = i2.1 := by simpa using e2
  have h12 : i1 = i2 := Fin.ext (by omega)
  rw [h12, hi2] at hi1
  injection hi1 with h3 h4
  exact h3.symm

theorem sort_nodup_pairwise (l : List Nat) (h : l.Nodup) :
    List.Pairwise (· < ·) (List.insertionSort (· ≤ ·) l) := by
  have h1 : List.Pairwise (· ≤ ·) (List.insertionSort (· ≤ ·) l) :=
    List.sorted_insertionSort (· ≤ ·) l
  have h2 : (List.insertionSort (· ≤ ·) l).Nodup :=
    (List.perm_insertionSort (· ≤ ·) l).nodup_iff.mpr h
  exact (h1.and h2).imp fun h4 => lt_of_le_of_ne h4.1 h4.2

theorem sort_mem (l : List Nat) (x : Nat) :
    x ∈ List.insertionSort (· ≤ ·) l ↔ x ∈ l :=
  (List.perm_insertionSort (· ≤ ·) l).mem_iff

/-- Per-node contributions of an edge list whose edges are loop-free and
pairwise distinct as unordered pairs are duplicate-free. -/
theorem contrib_nodup (es : List (Nat × Nat)) (u : Nat)
    (h1 : ∀ e ∈ es, e.1 ≠ e.2)
    (h2 : List.Pairwise (fun e f =>
      ¬(e.1 = f.1 ∧ e.2 = f.2) ∧ ¬(e.1 = f.2 ∧ e.2 = f.1)) es) :
    (contrib es u).Nodup := by
  induction es with
  | nil => simp [contrib]
  | cons e es ih =>
    rw [contrib_cons]
    obtain ⟨hhead, htail⟩ := List.pairwise_cons.mp h2
    have ihh := ih (fun f hf => h1 f (List.mem_cons_of_mem _ hf)) htail
    by_cases he1 : e.1 = u
    · rw [if_pos he1, List.singleton_append, List.nodup_cons]
      refine ⟨fun hmem => ?_, ihh⟩
      rcases mem_contrib.mp hmem with hm | hm
      · exact (hhead _ hm).1 ⟨he1, rfl⟩
      · exact (hhead _ hm).2 ⟨he1, rfl⟩
    · rw [if_neg he1]
      by_cases he2 : e.2 = u
      · rw [if_pos he2, List.singleton_append, List.nodup_cons]
        refine ⟨fun hmem => ?_, ihh⟩
        rcases mem_contrib.mp hmem with hm | hm
        · exact (hhead _ hm).2 ⟨rfl, he2⟩
        · exact (hhead _ hm).1 ⟨rfl, he2⟩
      · rw [if_neg he2, List.nil_append]
        exact ihh

/-- A duplicate-free list of canonically oriented (`min,max`) edges is
pairwise distinct as unordered pairs. -/
theorem canonical_pairwise (es : List (Nat × Nat)) (hnd : es.Nodup)
    (hcan : ∀ e ∈ es, e.1 < e.2) :
    List.Pairwise (fun e f =>
      ¬(e.1 = f.1 ∧ e.2 = f.2) ∧ ¬(e.1 = f.2 ∧ e.2 = f.1)) es := by
  refine hnd.imp_of_mem fun ha hb hne => ⟨fun h => ?_, fun h => ?_⟩
  · exact hne (Prod.ext h.1 h.2)
  · have h1 := hcan _ ha
    have h2 := hcan _ hb
    omega

/-- `buildAdjs` followed by per-list sorting satisfies all compact-graph
invariants as soon as the edges are in range, loop-free, and the per-node
contributions are duplicate-free. -/
theorem buildAdjs_sort_compactWF (nm : String) (n mm : Nat)
    (es : List (Nat × Nat))
    (hb : ∀ e ∈ es, e.1 < n ∧ e.2 < n ∧ e.1 ≠ e.2)
    (hnd : ∀ u, (contrib es u).Nodup) :
    CompactWF ⟨nm, n, mm,
      (buildAdjs n es).map (List.insertionSort (· ≤ ·))⟩ := by
  have hget : ∀ u < n,
      ((buildAdjs n es).map (List.insertionSort (· ≤ ·))).getD u [] =
        List.insertionSort (· ≤ ·) (contrib es u) := by
    intro u hu
    rw [getD_map_lt _ _ _ (by rw [buildAdjs_length]; exact hu),
      buildAdjs_getD n es hb]
  refine ⟨by rw [List.length_map, buildAdjs_length], ?_, ?_, ?_, ?_⟩
  · intro l hl
    obtain ⟨l0, hl0, rfl⟩ := List.mem_map.mp hl
    obtain ⟨i, hilt, hi⟩ := mem_of_mem_adjs _ _ hl0
    rw [← hi, buildAdjs_getD n es hb]
    exact sort_nodup_pairwise _ (hnd i)
  · intro l hl
    obtain ⟨l0, hl0, rfl⟩ := List.mem_map.mp hl
    obtain ⟨i, hilt, hi⟩ := mem_of_mem_adjs _ _ hl0
    rw [← hi, buildAdjs_getD n es hb]
    exact (sort_nodup_pairwise _ (hnd i)).imp Nat.ne_of_lt
  · intro u hu hcon
    rw [hget u hu, sort_mem] at hcon
    rcases mem_contrib.mp hcon with h | h <;> exact (hb _ h).2.2 rfl
  · intro u hu v hv
    rw [hget u hu, hget v hv, sort_mem, sort_mem, mem_contrib, mem_contrib]
    tauto

theorem o2nInsert_keys (acc : List (Nat × Nat)) (u k : Nat) :
    k ∈ (o2nInsert acc u).map Prod.fst ↔ k ∈ acc.map Prod.fst ∨ k = u := by
  unfold o2nInsert
  by_cases h : (acc.lookup u).isSome
  · rw [if_pos h]
    constructor
    · exact Or.inl
    · rintro (hk | rfl)
      · exact hk
      · exact (lookup_isSome_iff acc k).mp h
  · rw [if_neg h, List.map_append, List.mem_append]
    simp

theorem o2nInsert_inv (acc : List (Nat × Nat)) (u : Nat)
    (h1 : (acc.map Prod.fst).Nodup)
    (h2 : acc.map Prod.snd = List.range acc.length) :
    ((o2nInsert acc u).map Prod.fst).Nodup ∧
      (o2nInsert acc u).map Prod.snd =
        List.range (o2nInsert acc u).length := by
  unfold o2nInsert
  by_cases h : (acc.lookup u).isSome
  · rw [if_pos h]
    exact ⟨h1, h2⟩
  · rw [if_neg h]
    constructor
    · rw [List.map_append, List.nodup_append]
      refine ⟨h1, List.nodup_singleton u, fun a ha hb => ?_⟩
      simp only [List.map_cons, List.map_nil, List.mem_singleton] at hb
      subst hb
      exact h ((lookup_isSome_iff acc a).mpr ha)
    · rw [List.map_append, h2, List.length_append]
      show List.range acc.length ++ [acc.length] =
        List.range (acc.length + 1)
      rw [← List.range_succ]

theorem foldO2n_inv (es : List (Nat × Nat)) (acc : List (Nat × Nat))
    (h1 : (acc.map Prod.fst).Nodup)
    (h2 : acc.map Prod.snd = List.range acc.length) :
    (((es.foldl (fun a e => o2nInsert (o2nInsert a e.1) e.2) acc)).map
        Prod.fst).Nodup ∧
      (es.foldl (fun a e => o2nInsert (o2nInsert a e.1) e.2) acc).map
          Prod.snd =
        List.range
          (es.foldl (fun a e => o2nInsert (o2nInsert a e.1) e.2) acc).length ∧
      ∀ k, k ∈ (es.foldl (fun a e => o2nInsert (o2nInsert a e.1) e.2)
          acc).map Prod.fst ↔
        k ∈ acc.map Prod.fst ∨ ∃ e ∈ es, k = e.1 ∨ k = e.2 := by
  induction es generalizing acc with
  | nil =>
    refine ⟨h1, h2, fun k => ?_⟩
    simp
  | cons e es ih =>
    rw [List.foldl_cons]
    have hi1 := o2nInsert_inv acc e.1 h1 h2
    have hi2 := o2nInsert_inv _ e.2 hi1.1 hi1.2
    obtain ⟨j1, j2, j3⟩ := ih (o2nInsert (o2nInsert acc e.1) e.2) hi2.1 hi2.2
    refine ⟨j1, j2, fun k => ?_⟩
    rw [j3 k, o2nInsert_keys, o2nInsert_keys]
    constructor
    · rintro (((hk | rfl) | rfl) | ⟨f, hf, hor⟩)
      · exact Or.inl hk
      · exact Or.inr ⟨e, List.mem_cons_self _ _, Or.inl rfl⟩
      · exact Or.inr ⟨e, List.mem_cons_self _ _, Or.inr rfl⟩
      · exact Or.inr ⟨f, List.mem_cons_of_mem _ hf, hor⟩
    · rintro (hk | ⟨f, hf, hor⟩)
      · exact Or.inl (Or.inl (Or.inl hk))
      · rcases List.mem_cons.mp hf with rfl | hf2
        · rcases hor with h | h
          · exact Or.inl (Or.inl (Or.inr h))
          · exact Or.inl (Or.inr h)
        · exact Or.inr ⟨f, hf2, hor⟩

theorem buildO2n_inv (es : List (Nat × Nat)) :
    ((buildO2n es).map Prod.fst).Nodup ∧
      (buildO2n es).map Prod.snd = List.range (buildO2n es).length ∧
      ∀ k, k ∈ (buildO2n es).map Prod.fst ↔ ∃ e ∈ es, k = e.1 ∨ k = e.2 := by
  obtain ⟨j1, j2, j3⟩ := foldO2n_inv es [] List.nodup_nil rfl
  unfold buildO2n
  refine ⟨j1, j2, fun k => ?_⟩
  rw [j3 k]
  simp

/-- `fromGeneral`, with the two `let`s and the inner `if` flattened. -/
theorem fromGeneral_eq (g : GeneralUndiGraph) :
    fromGeneral g =
      if g.nodes.length = 0 then ⟨"EmptyGraph", 0, 0, []⟩
      else ⟨g.name, g.nodes.length, g.edges.length,
        ((if renumberFlag g then
            buildAdjs g.nodes.length
              (g.edges.map fun e => (lookupD (buildO2n g.edges) e.1,
                lookupD (buildO2n g.edges) e.2))
          else buildAdjs g.nodes.length g.edges).map
          (List.insertionSort (· ≤ ·)))⟩ := rfl

theorem fromGeneral_compactWF (g : GeneralUndiGraph) (hwf : GeneralWF g) :
    CompactWF (fromGeneral g) := by
  obtain ⟨hnodesND, hedgesND, hcan, hend⟩ := hwf
  rw [fromGeneral_eq]
  by_cases hn : g.nodes.length = 0
  · rw [if_pos hn]
    decide
  · rw [if_neg hn]
    by_cases hr : renumberFlag g
    · rw [if_pos hr]
      obtain ⟨k1, k2, k3⟩ := buildO2n_inv g.edges
      have hpair : ∀ k ∈ (buildO2n g.edges).map Prod.fst,
          (k, lookupD (buildO2n g.edges) k) ∈ buildO2n g.edges := by
        intro k hk
        have hs := (lookup_isSome_iff (buildO2n g.edges) k).mpr hk
        obtain ⟨v, hv⟩ := Option.isSome_iff_exists.mp hs
        have hd : lookupD (buildO2n g.edges) k = v := by
          unfold lookupD
          rw [hv]
          rfl
        rw [hd]
        exact lookup_mem _ _ _ hv
      have hkey : ∀ e ∈ g.edges, e.1 ∈ (buildO2n g.edges).map Prod.fst ∧
          e.2 ∈ (buildO2n g.edges).map Prod.fst := by
        intro e he
        exact ⟨(k3 e.1).mpr ⟨e, he, Or.inl rfl⟩,
          (k3 e.2).mpr ⟨e, he, Or.inr rfl⟩⟩
      have hinj : ∀ k1 ∈ (buildO2n g.edges).map Prod.fst,
          ∀ k2 ∈ (buildO2n g.edges).map Prod.fst,
          lookupD (buildO2n g.edges) k1 = lookupD (buildO2n g.edges) k2 →
            k1 = k2 := by
        intro a ha b hb hab
        refine snd_range_inj _ a b (lookupD (buildO2n g.edges) b) k2 ?_
          (hpair b hb)
        rw [← hab]
        exact hpair a ha
      have hsub : (buildO2n g.edges).map Prod.fst ⊆ g.nodes := by
        intro k hk
        obtain ⟨e, he, hor⟩ := (k3 k).mp hk
        rcases hor with rfl | rfl
        · exact (hend e he).1
        · exact (hend e he).2
      have hlenle : (buildO2n g.edges).length ≤ g.nodes.length := by
        have := (List.subperm_of_subset k1 hsub).length_le
        rwa [List.length_map] at this
      have hbnd : ∀ k ∈ (buildO2n g.edges).map Prod.fst,
          lookupD (buildO2n g.edges) k < g.nodes.length := by
        intro k hk
        have := snd_range_val_lt _ _ _ k2 (hpair k hk)
        omega
      refine buildAdjs_sort_compactWF _ _ _ _ ?_ ?_
      · intro f hf
        obtain ⟨e, he, rfl⟩ := List.mem_map.mp hf
        obtain ⟨he1, he2⟩ := hkey e he
        refine ⟨hbnd _ he1, hbnd _ he2, fun hq => ?_⟩
        have := hinj _ he1 _ he2 hq
        have := hcan e he
        omega
      · intro u
        refine contrib_nodup _ u ?_ ?_
        · intro f hf
          obtain ⟨e, he, rfl⟩ := List.mem_map.mp hf
          obtain ⟨he1, he2⟩ := hkey e he
          intro hq
          have := hinj _ he1 _ he2 hq
          have := hcan e he
          omega
        · rw [List.pairwise_map]
          refine (canonical_pairwise g.edges hedgesND hcan).imp_of_mem
            fun ha hb hrel => ?_
          obtain ⟨ha1, ha2⟩ := hkey _ ha
          obtain ⟨hb1, hb2⟩ := hkey _ hb
          constructor
          · rintro ⟨q1, q2⟩
            exact hrel.1 ⟨hinj _ ha1 _ hb1 q1, hinj _ ha2 _ hb2 q2⟩
          · rintro ⟨q1, q2⟩
            exact hrel.2 ⟨hinj _ ha1 _ hb2 q1, hinj _ ha2 _ hb1 q2⟩
    · rw [if_neg hr]
      have hmax : g.nodes.foldl max 0 + 1 = g.nodes.length := by
        by_contra hq
        exact hr (by unfold renumberFlag; exact decide_eq_true hq)
      refine buildAdjs_sort_compactWF _ _ _ _ ?_ ?_
      · intro e he
        have h1 := mem_le_foldl_max g.nodes 0 e.1 (hend e he).1
        have h2 := mem_le_foldl_max g.nodes 0 e.2 (hend e he).2
        have h3 := hcan e he
        exact ⟨by omega, by omega, by omega⟩
      · intro u
        exact contrib_nodup _ u (fun e he => Nat.ne_of_lt (hcan e he))
          (canonical_pairwise g.edges hedgesND hcan)

/-- C5: every compact graph produced by any of the five constructors —
`from_general` (on a well-formed sparse graph: duplicate-free node and edge
sets, canonically oriented `(min,max)` edges with endpoints drawn from the
node set, exactly the values reachable through `add_edge`), `from_apollo`,
`from_koch`, `from_pseudo_ext` and `from_pseudofractal` — satisfies the
representation invariants: there are exactly `n` adjacency lists, every
adjacency list is strictly ascending (hence sorted and, by construction,
free of duplicate neighbor entries), no list contains its own index (no
self-loops), and membership is symmetric (`v ∈ adjs[u]` iff `u ∈ adjs[v]`
for `u, v < n`). -/
theorem compact_invariants :
    (∀ g : GeneralUndiGraph, GeneralWF g → CompactWF (fromGeneral g)) ∧
    (∀ g : Nat, CompactWF (fromApollo g)) ∧
    (∀ g : Nat, CompactWF (fromKoch g)) ∧
    (∀ m g : Nat, CompactWF (fromPseudoExt m g)) ∧
    (∀ g : Nat, CompactWF (fromPseudofractal g)) :=
  ⟨fromGeneral_compactWF, fromApollo_compactWF, fromKoch_compactWF,
    fun m g => fromPseudoExtNamed_compactWF m g _,
    fun g => fromPseudoExtNamed_compactWF 1 g _⟩

/-- Witness for C5: the dense triangle is a well-formed sparse graph, and
the theorem applies to it. -/
theorem compact_invariants_witness :
    GeneralWF denseTriangle ∧ CompactWF (fromGeneral denseTriangle) :=
  ⟨by decide, compact_invariants.1 denseTriangle (by decide)⟩

end GG
